import Mathlib

/-!
Verification development for the NEAR light client verification core
(`near-light-client` plus the `light-client-app-sample` facade).

Byte strings are modelled as lists of naturals; `sha256` and the
`ed25519_dalek` primitives are external library code and are therefore
taken as parameters, so every statement below is universally quantified
over them.  Machine integers (`u64`, `u128`) are modelled as `Nat` with
explicit reduction modulo `2 ^ 64` / `2 ^ 128` where the source can
overflow (Rust release-mode arithmetic wraps).
-/

namespace NearLC

/-- Byte strings (`Vec<u8>` / `&[u8]`) are modelled as lists of naturals. -/
abbrev Bytes := List Nat

/-- The 32-byte hash type `CryptoHash` of `near_types/hash.rs`.  The length
invariant is not tracked; equality is byte-wise, as in the source. -/
structure CryptoHash where
  bytes : Bytes
deriving DecidableEq, Repr

/-- `CryptoHash::new` / `CryptoHash::default`: the all-zero hash. -/
def CryptoHash.zero : CryptoHash := ⟨List.replicate 32 0⟩

/-- `combine_hash` of `near_types/hash.rs`: sha256 of the concatenation of the
two hashes. -/
def combine_hash (sha256 : Bytes → Bytes) (hash1 hash2 : CryptoHash) : CryptoHash :=
  ⟨sha256 (hash1.bytes ++ hash2.bytes)⟩

/-- Little-endian byte encoding of width `w`; byte `i` is `n / 256 ^ i % 256`.
Values that do not fit in `w` bytes are silently truncated, exactly as the
fixed-width `to_le_bytes` calls of the source are. -/
def leBytes (w n : Nat) : Bytes := (List.range w).map fun i => n / 256 ^ i % 256

/-- Encoding of a `u16` as two little-endian bytes. -/
def le16 (n : Nat) : Bytes := leBytes 2 n

/-- Encoding of a `u32` as four little-endian bytes. -/
def le32 (n : Nat) : Bytes := leBytes 4 n

/-- Encoding of a `u64` as eight little-endian bytes. -/
def le64 (n : Nat) : Bytes := leBytes 8 n

/-- Encoding of a `u128` as sixteen little-endian bytes. -/
def le128 (n : Nat) : Bytes := leBytes 16 n

/-- Decidable equality for `Except`, used to evaluate verdicts of the
modelled functions on concrete inputs. -/
instance {e a : Type} [DecidableEq e] [DecidableEq a] : DecidableEq (Except e a) := fun x y =>
  match x, y with
  | .ok u, .ok v =>
    if h : u = v then .isTrue (by rw [h]) else .isFalse (by intro hc; cases hc; exact h rfl)
  | .error u, .error v =>
    if h : u = v then .isTrue (by rw [h]) else .isFalse (by intro hc; cases hc; exact h rfl)
  | .ok _, .error _ => .isFalse (by intro hc; cases hc)
  | .error _, .ok _ => .isFalse (by intro hc; cases hc)

/-- Modulus of `u128` arithmetic. -/
def u128Size : Nat := 2 ^ 128

/-! ## Trie nodes (`near_types/trie.rs`) -/

/-- `RawTrieNode` of `near_types/trie.rs`.  The 16-slot child array of a
branch is modelled as a list of optional hashes (decoding always produces
exactly 16 entries). -/
inductive RawTrieNode where
  | leaf (key : Bytes) (valueLength : Nat) (valueHash : CryptoHash)
  | branch (children : List (Option CryptoHash)) (value : Option (Nat × CryptoHash))
  | extension (key : Bytes) (child : CryptoHash)
deriving DecidableEq, Repr

/-- `RawTrieNodeWithSize` of `near_types/trie.rs`. -/
structure RawTrieNodeWithSize where
  node : RawTrieNode
  memoryUsage : Nat
deriving DecidableEq, Repr

/-- The bitmap computed by `RawTrieNode::encode_into` for a branch node:
`pos` starts at 1 and doubles per slot, and is or-ed in whenever the slot
holds a child. -/
def branchBitmap (children : List (Option CryptoHash)) : Nat :=
  (children.foldl (fun bp c => (if c.isSome then bp.1 ||| bp.2 else bp.1, bp.2 * 2)) (0, 1)).1

/-- The concatenated bytes of the present children of a branch node, in
ascending slot order (`children.iter().flatten()` in the source). -/
def branchChildrenBytes (children : List (Option CryptoHash)) : Bytes :=
  ((children.filterMap id).map CryptoHash.bytes).flatten

/-- `RawTrieNode::encode_into`: tag byte, then the payload of the node. -/
def RawTrieNode.encodeInto : RawTrieNode → Bytes
  | .leaf key valueLength valueHash =>
      0 :: (le32 key.length ++ key ++ le32 valueLength ++ valueHash.bytes)
  | .branch children none =>
      1 :: (le16 (branchBitmap children) ++ branchChildrenBytes children)
  | .branch children (some v) =>
      2 :: (le32 v.1 ++ v.2.bytes ++ le16 (branchBitmap children) ++ branchChildrenBytes children)
  | .extension key child =>
      3 :: (le32 key.length ++ key ++ child.bytes)

/-- `RawTrieNodeWithSize::encode_into`: the node bytes followed by
`memory_usage` as a little-endian `u64`. -/
def RawTrieNodeWithSize.encodeInto (n : RawTrieNodeWithSize) : Bytes :=
  n.node.encodeInto ++ le64 n.memoryUsage

/-- The `hash_node` closure of `verify_state_proof` / `verify_not_in_state`:
sha256 of the re-encoded node. -/
def hash_node (sha256 : Bytes → Bytes) (n : RawTrieNodeWithSize) : CryptoHash :=
  ⟨sha256 n.encodeInto⟩

/-- Nibble expansion of a byte string: each byte yields its high nibble then
its low nibble.  This is `NibbleSlice::new`. -/
def nibblesOfBytes (bs : Bytes) : List Nat :=
  (bs.map fun b => [b / 16 % 16, b % 16]).flatten

/-- Modelled from the spec: `trie.rs` declares `pub mod nibble_slice`, but the
file `nibble_slice.rs` is not part of the sources.  Per the spec, the
leaf/extension `key_bytes` are nibble-slice encoded: the first byte packs a
2-bit parity/terminator flag with the first nibble, subsequent bytes pack two
nibbles each, and the decoder reconstructs the nibble sequence and the
terminator flag.  Bit 4 of the flag byte signals odd length (the first nibble
is the low nibble of the flag byte), bit 5 is the terminator flag. -/
def fromEncoded (data : Bytes) : List Nat × Bool :=
  let flags := data.headD 0
  let nibs := nibblesOfBytes data
  (if flags.testBit 4 then nibs.drop 1 else nibs.drop 2, flags.testBit 5)

/-- Modelled from the spec: `trie.rs` imports `StateProofVerificationError`
from the crate root, but the revision of `lib.rs` in the sources does not
define it; the spec (section 7) lists these variants.  The node index is
carried by `InvalidProofData`. -/
inductive StateProofVerificationError where
  | missingProofData
  | invalidRootHashOfProofData
  | invalidProofData (proofIndex : Nat)
  | invalidProofDataLength
  | specifiedKeyHasValueInState
deriving DecidableEq, Repr

/-- The loop of `verify_state_proof` (`trie.rs`): the node list is walked in
order with the current nibble cursor, the expected hash and the running node
index. -/
def verifyStateProofLoop (sha256 : Bytes → Bytes) (value : Bytes) :
    List RawTrieNodeWithSize → List Nat → CryptoHash → Nat →
    Except StateProofVerificationError Unit
  | [], _, _, _ => .error .invalidProofDataLength
  | n :: rest, key, expectedHash, nodeIndex =>
    match n.node with
    | .leaf nodeKey _ valueHash =>
      if hash_node sha256 n ≠ expectedHash then .error (.invalidProofData nodeIndex)
      else if key ≠ (fromEncoded nodeKey).1 then .error (.invalidProofData nodeIndex)
      else if (⟨sha256 value⟩ : CryptoHash) = valueHash then .ok ()
      else .error (.invalidProofData nodeIndex)
    | .extension nodeKey childHash =>
      if hash_node sha256 n ≠ expectedHash then .error (.invalidProofData nodeIndex)
      else
        let nib := (fromEncoded nodeKey).1
        if ¬ nib.isPrefixOf key then .error (.invalidProofData nodeIndex)
        else verifyStateProofLoop sha256 value rest (key.drop nib.length) childHash (nodeIndex + 1)
    | .branch children nodeValue =>
      if hash_node sha256 n ≠ expectedHash then .error (.invalidProofData nodeIndex)
      else
        match key with
        | [] =>
          match nodeValue with
          | some v =>
            if (⟨sha256 value⟩ : CryptoHash) = v.2 then .ok ()
            else .error (.invalidProofData nodeIndex)
          | none => .error (.invalidProofData nodeIndex)
        | idx :: keyRest =>
          match children.getD idx none with
          | some childHash =>
            verifyStateProofLoop sha256 value rest keyRest childHash (nodeIndex + 1)
          | none => .error (.invalidProofData nodeIndex)

/-- `verify_state_proof` of `trie.rs`: walk the proof nodes against the nibble
cursor of `key`, starting from the state root, with node indices from 0. -/
def verify_state_proof (sha256 : Bytes → Bytes) (key : Bytes)
    (nodes : List RawTrieNodeWithSize) (value : Bytes) (stateRoot : CryptoHash) :
    Except StateProofVerificationError Unit :=
  verifyStateProofLoop sha256 value nodes (nibblesOfBytes key) stateRoot 0

/-- The loop of `verify_not_in_state` (`trie.rs`). -/
def verifyNotInStateLoop (sha256 : Bytes → Bytes) :
    List RawTrieNodeWithSize → List Nat → CryptoHash → Nat →
    Except StateProofVerificationError Unit
  | [], _, _, _ => .error .invalidProofDataLength
  | n :: rest, key, expectedHash, nodeIndex =>
    match n.node with
    | .leaf nodeKey _ _ =>
      if hash_node sha256 n ≠ expectedHash then .error (.invalidProofData nodeIndex)
      else if key ≠ (fromEncoded nodeKey).1 then .ok ()
      else .error .specifiedKeyHasValueInState
    | .extension nodeKey childHash =>
      if hash_node sha256 n ≠ expectedHash then .error (.invalidProofData nodeIndex)
      else
        let nib := (fromEncoded nodeKey).1
        if ¬ nib.isPrefixOf key then .ok ()
        else verifyNotInStateLoop sha256 rest (key.drop nib.length) childHash (nodeIndex + 1)
    | .branch children nodeValue =>
      if hash_node sha256 n ≠ expectedHash then .error (.invalidProofData nodeIndex)
      else
        match key with
        | [] =>
          match nodeValue with
          | some _ => .error .specifiedKeyHasValueInState
          | none => .ok ()
        | idx :: keyRest =>
          match children.getD idx none with
          | some childHash =>
            verifyNotInStateLoop sha256 rest keyRest childHash (nodeIndex + 1)
          | none => .ok ()

/-- `verify_not_in_state` of `trie.rs`. -/
def verify_not_in_state (sha256 : Bytes → Bytes) (key : Bytes)
    (nodes : List RawTrieNodeWithSize) (stateRoot : CryptoHash) :
    Except StateProofVerificationError Unit :=
  verifyNotInStateLoop sha256 nodes (nibblesOfBytes key) stateRoot 0

/-! ## Specification-side walk relations

The claims describe the two trie walks as quantified sentences about the
node list; the following inductive relations render those sentences.  A
"step" node is one the cursor passes through: an extension whose re-encoded
sha256 image matches the expected hash and whose nibbles are a prefix of the
remaining cursor, or a hash-valid branch traversed through a present child
slot by consuming one nibble. -/

/-- Success predicate for the membership walk: the walk, carried out in list
order, terminates at a hash-valid leaf whose decoded nibble key equals the
entire remaining cursor and whose value hash is `sha256 value`, or at a
hash-valid branch reached with an empty cursor whose own value slot is
present with hash `sha256 value`; interior nodes are steps. -/
inductive MembershipWalkOk (sha256 : Bytes → Bytes) (value : Bytes) :
    List RawTrieNodeWithSize → List Nat → CryptoHash → Prop where
  | leafHit (n : RawTrieNodeWithSize) (rest : List RawTrieNodeWithSize)
      (nodeKey : Bytes) (vlen : Nat) (cursor : List Nat) (expected : CryptoHash) :
      n.node = .leaf nodeKey vlen ⟨sha256 value⟩ →
      hash_node sha256 n = expected →
      (fromEncoded nodeKey).1 = cursor →
      MembershipWalkOk sha256 value (n :: rest) cursor expected
  | branchValueHit (n : RawTrieNodeWithSize) (rest : List RawTrieNodeWithSize)
      (children : List (Option CryptoHash)) (vlen : Nat) (expected : CryptoHash) :
      n.node = .branch children (some (vlen, ⟨sha256 value⟩)) →
      hash_node sha256 n = expected →
      MembershipWalkOk sha256 value (n :: rest) [] expected
  | extensionStep (n : RawTrieNodeWithSize) (rest : List RawTrieNodeWithSize)
      (nodeKey : Bytes) (childHash : CryptoHash) (cursor : List Nat) (expected : CryptoHash) :
      n.node = .extension nodeKey childHash →
      hash_node sha256 n = expected →
      (fromEncoded nodeKey).1.isPrefixOf cursor = true →
      MembershipWalkOk sha256 value rest (cursor.drop (fromEncoded nodeKey).1.length) childHash →
      MembershipWalkOk sha256 value (n :: rest) cursor expected
  | branchStep (n : RawTrieNodeWithSize) (rest : List RawTrieNodeWithSize)
      (children : List (Option CryptoHash)) (nodeValue : Option (Nat × CryptoHash))
      (nb : Nat) (cursor : List Nat) (childHash : CryptoHash) (expected : CryptoHash) :
      n.node = .branch children nodeValue →
      hash_node sha256 n = expected →
      children.getD nb none = some childHash →
      MembershipWalkOk sha256 value rest cursor childHash →
      MembershipWalkOk sha256 value (n :: rest) (nb :: cursor) expected

/-- Walks that consume the whole node list without reaching any verdict:
every node is a step. -/
inductive WalkSteps (sha256 : Bytes → Bytes) :
    List RawTrieNodeWithSize → List Nat → CryptoHash → Prop where
  | nil (cursor : List Nat) (expected : CryptoHash) :
      WalkSteps sha256 [] cursor expected
  | extensionStep (n : RawTrieNodeWithSize) (rest : List RawTrieNodeWithSize)
      (nodeKey : Bytes) (childHash : CryptoHash) (cursor : List Nat) (expected : CryptoHash) :
      n.node = .extension nodeKey childHash →
      hash_node sha256 n = expected →
      (fromEncoded nodeKey).1.isPrefixOf cursor = true →
      WalkSteps sha256 rest (cursor.drop (fromEncoded nodeKey).1.length) childHash →
      WalkSteps sha256 (n :: rest) cursor expected
  | branchStep (n : RawTrieNodeWithSize) (rest : List RawTrieNodeWithSize)
      (children : List (Option CryptoHash)) (nodeValue : Option (Nat × CryptoHash))
      (nb : Nat) (cursor : List Nat) (childHash : CryptoHash) (expected : CryptoHash) :
      n.node = .branch children nodeValue →
      hash_node sha256 n = expected →
      children.getD nb none = some childHash →
      WalkSteps sha256 rest cursor childHash →
      WalkSteps sha256 (n :: rest) (nb :: cursor) expected

/-- Divergence predicate for the non-membership walk exactly as claim C4
states it: a hash-valid leaf whose nibble key differs from the remaining
cursor, a hash-valid extension whose nibbles are not a prefix of the
remaining cursor, or a hash-valid branch whose child slot at the needed
nibble is absent; interior nodes are steps.  This rendering omits the case
of a hash-valid branch reached with an empty cursor and an absent value
slot. -/
inductive NonMemDivergesClaim (sha256 : Bytes → Bytes) :
    List RawTrieNodeWithSize → List Nat → CryptoHash → Prop where
  | leafDiff (n : RawTrieNodeWithSize) (rest : List RawTrieNodeWithSize)
      (nodeKey : Bytes) (vlen : Nat) (vhash : CryptoHash) (cursor : List Nat) (expected : CryptoHash) :
      n.node = .leaf nodeKey vlen vhash →
      hash_node sha256 n = expected →
      (fromEncoded nodeKey).1 ≠ cursor →
      NonMemDivergesClaim sha256 (n :: rest) cursor expected
  | extDiverge (n : RawTrieNodeWithSize) (rest : List RawTrieNodeWithSize)
      (nodeKey : Bytes) (childHash : CryptoHash) (cursor : List Nat) (expected : CryptoHash) :
      n.node = .extension nodeKey childHash →
      hash_node sha256 n = expected →
      (fromEncoded nodeKey).1.isPrefixOf cursor = false →
      NonMemDivergesClaim sha256 (n :: rest) cursor expected
  | branchAbsent (n : RawTrieNodeWithSize) (rest : List RawTrieNodeWithSize)
      (children : List (Option CryptoHash)) (nodeValue : Option (Nat × CryptoHash))
      (nb : Nat) (cursor : List Nat) (expected : CryptoHash) :
      n.node = .branch children nodeValue →
      hash_node sha256 n = expected →
      children.getD nb none = none →
      NonMemDivergesClaim sha256 (n :: rest) (nb :: cursor) expected
  | extensionStep (n : RawTrieNodeWithSize) (rest : List RawTrieNodeWithSize)
      (nodeKey : Bytes) (childHash : CryptoHash) (cursor : List Nat) (expected : CryptoHash) :
      n.node = .extension nodeKey childHash →
      hash_node sha256 n = expected →
      (fromEncoded nodeKey).1.isPrefixOf cursor = true →
      NonMemDivergesClaim sha256 rest (cursor.drop (fromEncoded nodeKey).1.length) childHash →
      NonMemDivergesClaim sha256 (n :: rest) cursor expected
  | branchStep (n : RawTrieNodeWithSize) (rest : List RawTrieNodeWithSize)
      (children : List (Option CryptoHash)) (nodeValue : Option (Nat × CryptoHash))
      (nb : Nat) (cursor : List Nat) (childHash : CryptoHash) (expected : CryptoHash) :
      n.node = .branch children nodeValue →
      hash_node sha256 n = expected →
      children.getD nb none = some childHash →
      NonMemDivergesClaim sha256 rest cursor childHash →
      NonMemDivergesClaim sha256 (n :: rest) (nb :: cursor) expected

/-- Divergence predicate for the non-membership walk as the code decides it:
the cases of `NonMemDivergesClaim` plus a hash-valid branch reached with an
empty cursor whose value slot is absent. -/
inductive NonMemDiverges (sha256 : Bytes → Bytes) :
    List RawTrieNodeWithSize → List Nat → CryptoHash → Prop where
  | leafDiff (n : RawTrieNodeWithSize) (rest : List RawTrieNodeWithSize)
      (nodeKey : Bytes) (vlen : Nat) (vhash : CryptoHash) (cursor : List Nat) (expected : CryptoHash) :
      n.node = .leaf nodeKey vlen vhash →
      hash_node sha256 n = expected →
      (fromEncoded nodeKey).1 ≠ cursor →
      NonMemDiverges sha256 (n :: rest) cursor expected
  | extDiverge (n : RawTrieNodeWithSize) (rest : List RawTrieNodeWithSize)
      (nodeKey : Bytes) (childHash : CryptoHash) (cursor : List Nat) (expected : CryptoHash) :
      n.node = .extension nodeKey childHash →
      hash_node sha256 n = expected →
      (fromEncoded nodeKey).1.isPrefixOf cursor = false →
      NonMemDiverges sha256 (n :: rest) cursor expected
  | branchAbsent (n : RawTrieNodeWithSize) (rest : List RawTrieNodeWithSize)
      (children : List (Option CryptoHash)) (nodeValue : Option (Nat × CryptoHash))
      (nb : Nat) (cursor : List Nat) (expected : CryptoHash) :
      n.node = .branch children nodeValue →
      hash_node sha256 n = expected →
      children.getD nb none = none →
      NonMemDiverges sha256 (n :: rest) (nb :: cursor) expected
  | branchNoValue (n : RawTrieNodeWithSize) (rest : List RawTrieNodeWithSize)
      (children : List (Option CryptoHash)) (expected : CryptoHash) :
      n.node = .branch children none →
      hash_node sha256 n = expected →
      NonMemDiverges sha256 (n :: rest) [] expected
  | extensionStep (n : RawTrieNodeWithSize) (rest : List RawTrieNodeWithSize)
      (nodeKey : Bytes) (childHash : CryptoHash) (cursor : List Nat) (expected : CryptoHash) :
      n.node = .extension nodeKey childHash →
      hash_node sha256 n = expected →
      (fromEncoded nodeKey).1.isPrefixOf cursor = true →
      NonMemDiverges sha256 rest (cursor.drop (fromEncoded nodeKey).1.length) childHash →
      NonMemDiverges sha256 (n :: rest) cursor expected
  | branchStep (n : RawTrieNodeWithSize) (rest : List RawTrieNodeWithSize)
      (children : List (Option CryptoHash)) (nodeValue : Option (Nat × CryptoHash))
      (nb : Nat) (cursor : List Nat) (childHash : CryptoHash) (expected : CryptoHash) :
      n.node = .branch children nodeValue →
      hash_node sha256 n = expected →
      children.getD nb none = some childHash →
      NonMemDiverges sha256 rest cursor childHash →
      NonMemDiverges sha256 (n :: rest) (nb :: cursor) expected

/-- Termination predicate for the non-membership walk: the cursor terminates
at a hash-valid leaf whose key equals the remaining cursor, or at a
hash-valid branch reached with an empty cursor whose value slot is present;
interior nodes are steps. -/
inductive NonMemHasValue (sha256 : Bytes → Bytes) :
    List RawTrieNodeWithSize → List Nat → CryptoHash → Prop where
  | leafEq (n : RawTrieNodeWithSize) (rest : List RawTrieNodeWithSize)
      (nodeKey : Bytes) (vlen : Nat) (vhash : CryptoHash) (cursor : List Nat) (expected : CryptoHash) :
      n.node = .leaf nodeKey vlen vhash →
      hash_node sha256 n = expected →
      (fromEncoded nodeKey).1 = cursor →
      NonMemHasValue sha256 (n :: rest) cursor expected
  | branchValue (n : RawTrieNodeWithSize) (rest : List RawTrieNodeWithSize)
      (children : List (Option CryptoHash)) (v : Nat × CryptoHash) (expected : CryptoHash) :
      n.node = .branch children (some v) →
      hash_node sha256 n = expected →
      NonMemHasValue sha256 (n :: rest) [] expected
  | extensionStep (n : RawTrieNodeWithSize) (rest : List RawTrieNodeWithSize)
      (nodeKey : Bytes) (childHash : CryptoHash) (cursor : List Nat) (expected : CryptoHash) :
      n.node = .extension nodeKey childHash →
      hash_node sha256 n = expected →
      (fromEncoded nodeKey).1.isPrefixOf cursor = true →
      NonMemHasValue sha256 rest (cursor.drop (fromEncoded nodeKey).1.length) childHash →
      NonMemHasValue sha256 (n :: rest) cursor expected
  | branchStep (n : RawTrieNodeWithSize) (rest : List RawTrieNodeWithSize)
      (children : List (Option CryptoHash)) (nodeValue : Option (Nat × CryptoHash))
      (nb : Nat) (cursor : List Nat) (childHash : CryptoHash) (expected : CryptoHash) :
      n.node = .branch children nodeValue →
      hash_node sha256 n = expected →
      children.getD nb none = some childHash →
      NonMemHasValue sha256 rest cursor childHash →
      NonMemHasValue sha256 (n :: rest) (nb :: cursor) expected

/-! ## Signatures (`near_types/signature.rs`) -/

/-- `PublicKey` of `near_types/signature.rs`: `ED25519` is the sole variant.
The wrapped `ED25519PublicKey` is a 32-byte array, modelled as bytes. -/
inductive PublicKey where
  | ed25519 (bytes : Bytes)
deriving DecidableEq, Repr

/-- `Signature` of `near_types/signature.rs`: `ED25519(Vec<u8>)`. -/
inductive Signature where
  | ed25519 (bytes : Bytes)
deriving DecidableEq, Repr

/-- The three `ed25519_dalek` primitives used by `Signature::verify`,
external library code taken as parameters: whether
`ed25519_dalek::PublicKey::from_bytes` succeeds, whether
`ed25519_dalek::Signature::from_bytes` succeeds, and whether
`public_key.verify(data, signature)` returns `Ok`.  `verifyOk` takes the
public-key bytes, the message and the signature bytes. -/
structure Ed25519Backend where
  pkFromBytesOk : Bytes → Bool
  sigFromBytesOk : Bytes → Bool
  verifyOk : Bytes → Bytes → Bytes → Bool

/-- `Signature::verify` of `near_types/signature.rs`: parse the public key
(false on failure), then parse the signature (false on failure), then call
the dalek verifier. -/
def Signature.verify (ed : Ed25519Backend) (s : Signature) (data : Bytes)
    (public_key : PublicKey) : Bool :=
  match s, public_key with
  | .ed25519 sigBytes, .ed25519 pkBytes =>
    if ed.pkFromBytesOk pkBytes then
      if ed.sigFromBytesOk sigBytes then ed.verifyOk pkBytes data sigBytes
      else false
    else false

/-! ## Block types and their borsh encodings (`near_types/mod.rs`)

The borsh-derived serializers of the source are rendered field by field
following the borsh rules (fixed-width integers little-endian, sequences
length-prefixed by a little-endian `u32`, options with a presence byte,
enums with a `u8` discriminant). -/

/-- `BlockHeaderInnerLite` of `near_types/mod.rs`.  `EpochId` is a
transparent wrapper of `CryptoHash` and is flattened; `AccountId` strings
are modelled by their UTF-8 bytes. -/
structure BlockHeaderInnerLite where
  height : Nat
  epoch_id : CryptoHash
  next_epoch_id : CryptoHash
  prev_state_root : CryptoHash
  outcome_root : CryptoHash
  timestamp : Nat
  next_bp_hash : CryptoHash
  block_merkle_root : CryptoHash
deriving DecidableEq, Repr

/-- Borsh serialization of `BlockHeaderInnerLite`: the concatenation of the
field encodings in declaration order. -/
def BlockHeaderInnerLite.borsh (x : BlockHeaderInnerLite) : Bytes :=
  le64 x.height ++ x.epoch_id.bytes ++ x.next_epoch_id.bytes ++
    x.prev_state_root.bytes ++ x.outcome_root.bytes ++ le64 x.timestamp ++
    x.next_bp_hash.bytes ++ x.block_merkle_root.bytes

/-- `ValidatorStakeViewV1` of `near_types/mod.rs`. -/
structure ValidatorStakeViewV1 where
  account_id : Bytes
  public_key : PublicKey
  stake : Nat
deriving DecidableEq, Repr

/-- `ValidatorStakeView` of `near_types/mod.rs`: the versioned sum with sole
variant `V1`. -/
inductive ValidatorStakeView where
  | v1 (v : ValidatorStakeViewV1)
deriving DecidableEq, Repr

/-- `ValidatorStakeView::into_validator_stake`. -/
def ValidatorStakeView.into_validator_stake : ValidatorStakeView → ValidatorStakeViewV1
  | .v1 v => v

/-- Borsh serialization of a `PublicKey`: discriminant byte 0 then the 32 key
bytes (`signature.rs`, `impl BorshSerialize for PublicKey`). -/
def PublicKey.borsh : PublicKey → Bytes
  | .ed25519 bs => 0 :: bs

/-- Borsh serialization of a byte-string-valued `String` (`AccountId`):
little-endian `u32` length then the bytes. -/
def borshString (s : Bytes) : Bytes := le32 s.length ++ s

/-- Borsh serialization of `ValidatorStakeView`: discriminant 0 for `V1`,
then `account_id`, `public_key` and the `u128` stake. -/
def ValidatorStakeView.borsh : ValidatorStakeView → Bytes
  | .v1 v => 0 :: (borshString v.account_id ++ v.public_key.borsh ++ le128 v.stake)

/-- Borsh serialization of a `Vec`: little-endian `u32` count then the
concatenated element encodings. -/
def borshVec (enc : α → Bytes) (l : List α) : Bytes :=
  le32 l.length ++ (l.map enc).flatten

/-- `ApprovalInner` of `near_types/mod.rs`. -/
inductive ApprovalInner where
  | endorsement (h : CryptoHash)
  | skip (height : Nat)
deriving DecidableEq, Repr

/-- Borsh serialization of `ApprovalInner`: discriminant 0 for
`Endorsement`, 1 for `Skip`. -/
def ApprovalInner.borsh : ApprovalInner → Bytes
  | .endorsement h => 0 :: h.bytes
  | .skip height => 1 :: le64 height

/-- `LightClientBlock` of `near_types/mod.rs` (lib.rs refers to the same
shape under the alias `LightClientBlockView`). -/
structure LightClientBlock where
  prev_block_hash : CryptoHash
  next_block_inner_hash : CryptoHash
  inner_lite : BlockHeaderInnerLite
  inner_rest_hash : CryptoHash
  next_bps : Option (List ValidatorStakeView)
  approvals_after_next : List (Option Signature)
deriving DecidableEq, Repr

/-- `LightClientBlock::current_block_hash`:
`combine(combine(sha256(borsh(inner_lite)), inner_rest_hash), prev_block_hash)`. -/
def LightClientBlock.current_block_hash (sha256 : Bytes → Bytes)
    (b : LightClientBlock) : CryptoHash :=
  combine_hash sha256
    (combine_hash sha256 ⟨sha256 b.inner_lite.borsh⟩ b.inner_rest_hash)
    b.prev_block_hash

/-- `LightClientBlock::next_block_hash`:
`combine(next_block_inner_hash, current_block_hash)`. -/
def LightClientBlock.next_block_hash (sha256 : Bytes → Bytes)
    (b : LightClientBlock) : CryptoHash :=
  combine_hash sha256 b.next_block_inner_hash (b.current_block_hash sha256)

/-- `LightClientBlock::approval_message`:
`borsh(ApprovalInner::Endorsement(next_block_hash)) ++ le64(height + 2)`.
The `u64` addition `height + 2` wraps through the 8-byte truncation of
`le64`. -/
def LightClientBlock.approval_message (sha256 : Bytes → Bytes)
    (b : LightClientBlock) : Bytes :=
  (ApprovalInner.endorsement (b.next_block_hash sha256)).borsh ++
    le64 (b.inner_lite.height + 2)

/-- `LightClientBlockViewExt` of `lib.rs`: the block view plus the
`prev_state_root` of every chunk at the same height. -/
structure LightClientBlockViewExt where
  light_client_block_view : LightClientBlock
  prev_state_root_of_chunks : List CryptoHash
deriving DecidableEq, Repr

/-- `ClientStateVerificationError` of `lib.rs`. -/
inductive ClientStateVerificationError where
  | uninitializedClient
  | invalidBlockHeight
  | invalidEpochId
  | missingNextBlockProducersInHead
  | missingCachedEpochBlockProducers (epoch_id : CryptoHash)
  | invalidValidatorSignature (signature : Signature) (pubkey : PublicKey)
  | blockIsNotFinal
  | invalidNextBlockProducersHash
  | invalidPrevStateRootOfChunks
deriving DecidableEq, Repr

/-- The read interface of the `NearLightClient` trait used by
`validate_and_update_head`: `get_latest_head` and
`get_epoch_block_producers`. -/
structure ClientView where
  latestHead : Option LightClientBlockViewExt
  epochBlockProducers : CryptoHash → Option (List ValidatorStakeView)

/-- The aggregation loop of `validate_and_update_head` (`lib.rs`): fold over
the zipped pairs of approvals and block producers, accumulating
`total_stake` and `approved_stake` as `u128` sums; a present signature is
counted into `approved_stake` and must then verify, otherwise the pair of
offending signature and public key is returned. -/
def aggregateStakes (ed : Ed25519Backend) (msg : Bytes) :
    List (Option Signature × ValidatorStakeView) → Nat → Nat →
    Except (Signature × PublicKey) (Nat × Nat)
  | [], totalStake, approvedStake => .ok (totalStake, approvedStake)
  | (maybeSignature, blockProducer) :: rest, totalStake, approvedStake =>
    let bpStakeView := blockProducer.into_validator_stake
    let totalStake' := (totalStake + bpStakeView.stake) % u128Size
    match maybeSignature with
    | none => aggregateStakes ed msg rest totalStake' approvedStake
    | some signature =>
      let approvedStake' := (approvedStake + bpStakeView.stake) % u128Size
      if signature.verify ed msg bpStakeView.public_key then
        aggregateStakes ed msg rest totalStake' approvedStake'
      else .error (signature, bpStakeView.public_key)


/-! ## Merkle engine (`near_types/merkle.rs`) -/

/-- `Direction` of `near_types/merkle.rs`. -/
inductive Direction where
  | left
  | right
deriving DecidableEq, Repr

/-- `MerklePathItem` of `near_types/merkle.rs`. -/
structure MerklePathItem where
  hash : CryptoHash
  direction : Direction
deriving DecidableEq, Repr

/-- `MerklePath` is an ordered list of path items. -/
abbrev MerklePath := List MerklePathItem

/-- `CryptoHash::hash_borsh`: sha256 of the borsh serialization, with the
element serializer passed explicitly. -/
def hash_borsh (sha256 : Bytes → Bytes) (encode : α → Bytes) (x : α) : CryptoHash :=
  ⟨sha256 (encode x)⟩

/-- `compute_root_from_path` of `near_types/merkle.rs`: walk the path from
the item hash towards the root; on `Left` the stored hash is the left
operand, on `Right` the right one. -/
def compute_root_from_path (sha256 : Bytes → Bytes) (path : MerklePath)
    (itemHash : CryptoHash) : CryptoHash :=
  path.foldl
    (fun res item =>
      match item.direction with
      | .left => combine_hash sha256 item.hash res
      | .right => combine_hash sha256 res item.hash)
    itemHash

/-- `usize::next_power_of_two`: the smallest power of two that is not below
`n` (1 for `n ≤ 1`). -/
def nextPowerOfTwo : Nat → Nat
  | 0 => 1
  | 1 => 1
  | n + 2 => 2 * nextPowerOfTwo ((n + 3) / 2)

/-- The path-push loop of `merklize`: for `j in 0..count`, push `item` onto
`paths[start + j]` whenever `start + j` is below the leaf count `total`. -/
def pushToRange (paths : List MerklePath) (start count total : Nat)
    (item : MerklePathItem) : List MerklePath :=
  (List.range count).foldl
    (fun ps j =>
      if start + j < total then ps.set (start + j) (ps.getD (start + j) [] ++ [item])
      else ps)
    paths

/-- Iteration `i` of the inner `for` loop of `merklize`: skip when
`2 * i ≥ arr_len`; otherwise compute the parent hash (promoting an unpaired
trailing node unchanged), store it at `i`, and, while `len > 1`, push it as
a path item onto every leaf under the sibling subtree of span `counter`. -/
def merklizeInnerStep (sha256 : Bytes → Bytes) (total arrLen counter len : Nat)
    (st : List CryptoHash × List MerklePath) (i : Nat) :
    List CryptoHash × List MerklePath :=
  if 2 * i ≥ arrLen then st
  else
    let hash :=
      if 2 * i + 1 ≥ arrLen then st.1.getD (2 * i) CryptoHash.zero
      else combine_hash sha256 (st.1.getD (2 * i) CryptoHash.zero)
        (st.1.getD (2 * i + 1) CryptoHash.zero)
    let hashes := st.1.set i hash
    let paths :=
      if 1 < len then
        if i % 2 = 0 then
          pushToRange st.2 ((i + 1) * counter) counter total ⟨hash, .left⟩
        else
          pushToRange st.2 ((i - 1) * counter) counter total ⟨hash, .right⟩
      else st.2
    (hashes, paths)

/-- One full pass of the inner `for` loop over `i in 0..len`. -/
def merklizeLevel (sha256 : Bytes → Bytes) (total arrLen counter len : Nat)
    (st : List CryptoHash × List MerklePath) :
    List CryptoHash × List MerklePath :=
  (List.range len).foldl (merklizeInnerStep sha256 total arrLen counter len) st

/-- The `while len > 1` loop of `merklize`: halve `len`, double `counter`,
run the inner loop with the old `arr_len`, then round `arr_len` up-halved. -/
def merklizeLoop (sha256 : Bytes → Bytes) (total : Nat) :
    Nat → Nat → Nat → List CryptoHash × List MerklePath →
    List CryptoHash × List MerklePath
  | len, counter, arrLen, st =>
    if 1 < len then
      merklizeLoop sha256 total (len / 2) (counter * 2) ((arrLen + 1) / 2)
        (merklizeLevel sha256 total arrLen (counter * 2) (len / 2) st)
    else st
termination_by len _ _ _ => len
decreasing_by exact Nat.div_lt_self (by omega) (by omega)

/-- The initial paths of `merklize`: each even-indexed leaf records its right
neighbour (when present), each odd-indexed leaf its left neighbour. -/
def merklizeInitPaths (hashes : List CryptoHash) (arrLen : Nat) : List MerklePath :=
  (List.range arrLen).map fun i =>
    if i % 2 = 0 then
      if i + 1 < arrLen then [⟨hashes.getD (i + 1) CryptoHash.zero, .right⟩] else []
    else [⟨hashes.getD (i - 1) CryptoHash.zero, .left⟩]

/-- `merklize` of `near_types/merkle.rs`: hash of zero for the empty array,
the single leaf hash with one empty path for a power-of-two length of 1, and
otherwise the level-by-level loop above. -/
def merklize (sha256 : Bytes → Bytes) (encode : α → Bytes) (arr : List α) :
    CryptoHash × List MerklePath :=
  if arr.isEmpty then (CryptoHash.zero, [])
  else
    let len := nextPowerOfTwo arr.length
    let hashes := arr.map (hash_borsh sha256 encode)
    if len = 1 then (hashes.getD 0 CryptoHash.zero, [[]])
    else
      let st := merklizeLoop sha256 arr.length len 1 arr.length
        (hashes, merklizeInitPaths hashes arr.length)
      (st.1.getD 0 CryptoHash.zero, st.2)

/-- The per-level pairing of the merkle tree, used as the specification the
loop of `merklize` is proved against: adjacent pairs are combined and an
unpaired trailing node is promoted unchanged. -/
def levelUp (sha256 : Bytes → Bytes) : List CryptoHash → List CryptoHash
  | [] => []
  | [a] => [a]
  | a :: b :: rest => combine_hash sha256 a b :: levelUp sha256 rest

/-! ## Header verifier (`lib.rs`, `validate_and_update_head`) -/

/-- `validate_and_update_head` of `lib.rs`.  The verdict is paired with the
list of `update_head` invocations the run performs, in order, so that the
mutation behaviour is part of the model.  Checks are performed in source
order: uninitialized client, height monotonicity, epoch admissibility,
next-producers presence on epoch boundary, cached producers lookup,
signature/stake aggregation, the finality threshold
`approved_stake <= total_stake * 2 / 3` in wrapping `u128` arithmetic, the
`next_bps` hash commitment, and the chunk merkle root commitment. -/
def validateAndUpdateHead (sha256 : Bytes → Bytes) (ed : Ed25519Backend)
    (c : ClientView) (newHead : LightClientBlockViewExt) :
    Except ClientStateVerificationError Unit × List LightClientBlockViewExt :=
  match c.latestHead with
  | none => (.error .uninitializedClient, [])
  | some latestHead =>
    let approvalMessage := newHead.light_client_block_view.approval_message sha256
    if newHead.light_client_block_view.inner_lite.height ≤
        latestHead.light_client_block_view.inner_lite.height then
      (.error .invalidBlockHeight, [])
    else if newHead.light_client_block_view.inner_lite.epoch_id ≠
          latestHead.light_client_block_view.inner_lite.epoch_id ∧
        newHead.light_client_block_view.inner_lite.epoch_id ≠
          latestHead.light_client_block_view.inner_lite.next_epoch_id then
      (.error .invalidEpochId, [])
    else if newHead.light_client_block_view.inner_lite.epoch_id =
          latestHead.light_client_block_view.inner_lite.next_epoch_id ∧
        newHead.light_client_block_view.next_bps = none then
      (.error .missingNextBlockProducersInHead, [])
    else
      match c.epochBlockProducers newHead.light_client_block_view.inner_lite.epoch_id with
      | none =>
        (.error (.missingCachedEpochBlockProducers
          newHead.light_client_block_view.inner_lite.epoch_id), [])
      | some epochBlockProducers =>
        match aggregateStakes ed approvalMessage
            (newHead.light_client_block_view.approvals_after_next.zip epochBlockProducers)
            0 0 with
        | .error sigAndKey =>
          (.error (.invalidValidatorSignature sigAndKey.1 sigAndKey.2), [])
        | .ok stakes =>
          let threshold := stakes.1 * 2 % u128Size / 3
          if stakes.2 ≤ threshold then (.error .blockIsNotFinal, [])
          else
            let tailChecks : Except ClientStateVerificationError Unit ×
                List LightClientBlockViewExt :=
              if newHead.light_client_block_view.inner_lite.prev_state_root ≠
                  (merklize sha256 CryptoHash.bytes newHead.prev_state_root_of_chunks).1 then
                (.error .invalidPrevStateRootOfChunks, [])
              else (.ok (), [newHead])
            match newHead.light_client_block_view.next_bps with
            | some bps =>
              if sha256 (borshVec ValidatorStakeView.borsh bps) ≠
                  newHead.light_client_block_view.inner_lite.next_bp_hash.bytes then
                (.error .invalidNextBlockProducersHash, [])
              else tailChecks
            | none => tailChecks

/-! ## File-backed sample client (`light-client-app-sample/src/light_client.rs`)

Only the cached-heights deque is relevant to the eviction claim; the file
operations are I/O side effects keyed by the same heights. -/

/-- The `cached_heights: VecDeque<BlockHeight>` of the sample `LightClient`;
the head of the list is the front of the deque. -/
structure SampleLightClient where
  cached_heights : List Nat
deriving DecidableEq, Repr

/-- `LightClient::latest_height`: the back of the deque. -/
def SampleLightClient.latest_height (c : SampleLightClient) : Option Nat :=
  c.cached_heights.getLast?

/-- `LightClient::oldest_height`: the front of the deque. -/
def SampleLightClient.oldest_height (c : SampleLightClient) : Option Nat :=
  c.cached_heights.head?

/-- `LightClient::remove_oldest_head`: pop the front of the deque (and delete
the corresponding head file); a no-op on an empty deque. -/
def SampleLightClient.remove_oldest_head (c : SampleLightClient) : SampleLightClient :=
  ⟨c.cached_heights.tail⟩

/-- `LightClient::update_head`: assert that the new height is strictly above
the back of the deque (a violated assertion panics, modelled as `none`), then
push the height onto the back. -/
def SampleLightClient.update_head (c : SampleLightClient) (h : Nat) :
    Option SampleLightClient :=
  match c.cached_heights.getLast? with
  | some latest => if h ≤ latest then none else some ⟨c.cached_heights ++ [h]⟩
  | none => some ⟨c.cached_heights ++ [h]⟩

/-- Client states reachable through the program: `LightClient::new` sorts the
heights read from the head-data folder ascending (`get_cached_heights`),
and the state then evolves by `update_head` and `remove_oldest_head`. -/
inductive SampleLightClient.Reachable : SampleLightClient → Prop where
  | new (hs : List Nat) (hsorted : hs.Sorted (· ≤ ·)) :
      SampleLightClient.Reachable ⟨hs⟩
  | update (c : SampleLightClient) (h : Nat) (c' : SampleLightClient) :
      SampleLightClient.Reachable c → c.update_head h = some c' →
      SampleLightClient.Reachable c'
  | evict (c : SampleLightClient) :
      SampleLightClient.Reachable c →
      SampleLightClient.Reachable c.remove_oldest_head

/-! ## Trie node decoding and `validate_contract_state` (`lib.rs`) -/

/-- `read_exact` over a byte list: take `k` bytes and return them with the
remainder, failing when fewer are available. -/
def readExact (k : Nat) (bs : Bytes) : Option (Bytes × Bytes) :=
  if k ≤ bs.length then some (bs.take k, bs.drop k) else none

/-- Little-endian value of a byte list (`LittleEndian::read_u16` /
`read_u32` / `u64::from_le_bytes`). -/
def leVal (bs : Bytes) : Nat := bs.foldr (fun b acc => acc * 256 + b) 0

/-- The slot loop of `decode_children`: for each of the 16 slots, read a
32-byte child hash when the corresponding bitmap bit (mask `pos`, doubling
per slot) is set. -/
def decodeChildrenSlots (bitmap : Nat) : Nat → Nat → Bytes →
    Option (List (Option CryptoHash) × Bytes)
  | _, 0, cursor => some ([], cursor)
  | pos, slots + 1, cursor =>
    if bitmap &&& pos ≠ 0 then
      match readExact 32 cursor with
      | none => none
      | some (arr, rest) =>
        match decodeChildrenSlots bitmap (pos * 2) slots rest with
        | none => none
        | some (children, rest') => some (some ⟨arr⟩ :: children, rest')
    else
      match decodeChildrenSlots bitmap (pos * 2) slots cursor with
      | none => none
      | some (children, rest') => some (none :: children, rest')

/-- `decode_children` of `trie.rs`: read the `u16` bitmap, then the present
children in ascending slot order. -/
def decode_children (bytes : Bytes) : Option (List (Option CryptoHash)) :=
  match readExact 2 bytes with
  | none => none
  | some (two, cursor) =>
    match decodeChildrenSlots (leVal two) 1 16 cursor with
    | none => none
    | some (children, _) => some children

/-- `RawTrieNode::decode` of `trie.rs`: dispatch on the tag byte; trailing
unread bytes are ignored, an unknown tag is an error. -/
def RawTrieNode.decode (bytes : Bytes) : Option RawTrieNode := do
  let (t, cursor) ← readExact 1 bytes
  let tag := t.headD 0
  if tag = 0 then do
    let (kl, cursor) ← readExact 4 cursor
    let (key, cursor) ← readExact (leVal kl) cursor
    let (vl, cursor) ← readExact 4 cursor
    let (vh, _) ← readExact 32 cursor
    pure (.leaf key (leVal vl) ⟨vh⟩)
  else if tag = 1 then do
    let children ← decode_children cursor
    pure (.branch children none)
  else if tag = 2 then do
    let (vl, cursor) ← readExact 4 cursor
    let (vh, cursor) ← readExact 32 cursor
    let children ← decode_children cursor
    pure (.branch children (some (leVal vl, ⟨vh⟩)))
  else if tag = 3 then do
    let (kl, cursor) ← readExact 4 cursor
    let (key, cursor) ← readExact (leVal kl) cursor
    let (child, _) ← readExact 32 cursor
    pure (.extension key ⟨child⟩)
  else none

/-- `RawTrieNodeWithSize::decode` of `trie.rs`: at least 8 bytes, the node
decoded from all but the trailing 8, and `memory_usage` from the trailing
little-endian `u64`. -/
def RawTrieNodeWithSize.decode (bytes : Bytes) : Option RawTrieNodeWithSize :=
  if bytes.length < 8 then none
  else
    match RawTrieNode.decode (bytes.take (bytes.length - 8)) with
    | none => none
    | some node => some ⟨node, leVal (bytes.drop (bytes.length - 8))⟩

/-- `get_raw_prefix_for_contract_data` of `near_types/mod.rs`: the
`CONTRACT_DATA` column byte 9, the account bytes, the separator byte 44
(comma), then the user prefix. -/
def get_raw_prefix_for_contract_data (account_id : Bytes) ( key_prefix : Bytes) : Bytes :=
  (9 :: account_id) ++ (44 :: key_prefix)

/-- `BlockId` of `near_types/mod.rs`: a height or a block hash. -/
inductive BlockId where
  | height (h : Nat)
  | hash (h : CryptoHash)
deriving DecidableEq, Repr

/-- Error type of `validate_contract_state`.  The `lib.rs` revision in the
sources declares `ContractStateValidationError` but forwards the result of
`verify_state_proof` unchanged, so the walk errors are embedded here as a
`stateProof` case. -/
inductive ContractStateValidationError where
  | missingHeadInClient (block_id : BlockId)
  | invalidRootHashOfProofData
  | stateProof (e : StateProofVerificationError)
deriving DecidableEq, Repr

/-- `validate_contract_state` of `lib.rs`, with `get_head` supplied as the
host lookup of the `NearLightClient` trait.  The value `none` models a
panic: `proofs[0]` on an empty vector is an out-of-bounds index, and the
`.unwrap()` on `RawTrieNodeWithSize::decode` panics when any proof element
fails to decode. -/
def validate_contract_state (sha256 : Bytes → Bytes)
    (get_head : BlockId → Option LightClientBlockViewExt) (block_id : BlockId)
    (contract_id : Bytes) ( key_prefix : Bytes) (value : Bytes)
    (proofs : List Bytes) :
    Option (Except ContractStateValidationError Unit) :=
  match get_head block_id with
  | none => some (.error (.missingHeadInClient block_id))
  | some head =>
    match proofs with
    | [] => none
    | p0 :: _ =>
      let root_hash : CryptoHash := ⟨sha256 p0⟩
      if root_hash ∈ head.prev_state_root_of_chunks then
        match proofs.mapM RawTrieNodeWithSize.decode with
        | none => none
        | some nodes =>
          some ((verify_state_proof sha256
            (get_raw_prefix_for_contract_data contract_id key_prefix)
            nodes value root_hash).mapError .stateProof)
      else some (.error .invalidRootHashOfProofData)

/-! ## Specification-side stake sums (claim C3) -/

/-- Wrapping `u128` sum of the stakes of a list of producers, starting from
`init`. -/
def sumStakesFrom (init : Nat) (l : List ValidatorStakeView) : Nat :=
  l.foldl (fun acc bp => (acc + bp.into_validator_stake.stake) % u128Size) init

/-- Wrapping `u128` sum of the stakes of a list of producers. -/
def sumStakesMod (l : List ValidatorStakeView) : Nat := sumStakesFrom 0 l

/-- The producers of the zipped pairs whose signature slot is present. -/
def signedProducers (pairs : List (Option Signature × ValidatorStakeView)) :
    List ValidatorStakeView :=
  (pairs.filter (fun p => p.1.isSome)).map (fun p => p.2)

/-! ## Concrete instances used by witnesses and counterexamples -/

/-- A concrete stand-in hash function: the identity on byte lists. -/
def shaConcrete : Bytes → Bytes := id

/-- A concrete stand-in hash function with constant value, convenient for
counterexamples where hash checks must succeed trivially. -/
def shaConst : Bytes → Bytes := fun _ => []

/-- A concrete dalek backend that accepts every key, signature and message. -/
def edAcceptAll : Ed25519Backend := ⟨fun _ => true, fun _ => true, fun _ _ _ => true⟩

/-- A concrete dalek backend that rejects every public key. -/
def edRejectPk : Ed25519Backend := ⟨fun _ => false, fun _ => true, fun _ _ _ => true⟩

/-- A concrete inner-lite header with all fields zero. -/
def innerLiteZero : BlockHeaderInnerLite :=
  ⟨0, ⟨[]⟩, ⟨[1]⟩, ⟨[]⟩, ⟨[]⟩, 0, ⟨[]⟩, ⟨[]⟩⟩

/-- A concrete light-client block at height 0 with no producers and no
approvals. -/
def blockZero : LightClientBlock :=
  ⟨⟨[]⟩, ⟨[]⟩, innerLiteZero, ⟨[]⟩, none, []⟩

/-- A concrete trusted head wrapping `blockZero` with no chunk roots. -/
def headZero : LightClientBlockViewExt := ⟨blockZero, []⟩

/-- The all-none 16-slot child list of an empty branch node. -/
def noChildren : List (Option CryptoHash) := List.replicate 16 none

/-- A branch node with no children and no value, wrapped with zero memory
usage. -/
def emptyBranchNode : RawTrieNodeWithSize := ⟨.branch noChildren none, 0⟩

/-- The sha256 image of `emptyBranchNode` under the constant stand-in hash
function, used as a state root in counterexamples. -/
def emptyBranchRoot : CryptoHash := ⟨shaConst emptyBranchNode.encodeInto⟩

/-- A concrete new head used by the finality-threshold counterexample: height
1, the same epoch as `headZero`, no `next_bps`, a single present (trivially
valid) signature out of two producers, and an empty chunk-root list so that
the final merkle check passes. -/
def newHeadFinality : LightClientBlockViewExt :=
  ⟨⟨⟨[]⟩, ⟨[]⟩, ⟨1, ⟨[]⟩, ⟨[2]⟩, CryptoHash.zero, ⟨[]⟩, 0, ⟨[]⟩, ⟨[]⟩⟩, ⟨[]⟩, none,
    [some (.ed25519 []), none]⟩, []⟩

/-- The two equal-stake producers (stake `2 ^ 126` each) of the
finality-threshold counterexample. -/
def producersHuge : List ValidatorStakeView :=
  [.v1 ⟨[], .ed25519 [], 2 ^ 126⟩, .v1 ⟨[], .ed25519 [], 2 ^ 126⟩]

/-- The client view of the finality-threshold counterexample: latest head
`headZero`, and `producersHuge` cached for every epoch id. -/
def clientHuge : ClientView := ⟨some headZero, fun _ => some producersHuge⟩

/-- A client view with no latest head. -/
def clientEmpty : ClientView := ⟨none, fun _ => none⟩

/-- Two producers of stake 3 each, for small concrete runs. -/
def producersSmall : List ValidatorStakeView :=
  [.v1 ⟨[], .ed25519 [], 3⟩, .v1 ⟨[], .ed25519 [], 3⟩]

/-- A client view caching `producersSmall` for every epoch, with latest head
`headZero`. -/
def clientSmall : ClientView := ⟨some headZero, fun _ => some producersSmall⟩

/-- A head-lookup function for `validate_contract_state` examples that
returns `headZero` at every block id. -/
def getHeadConst : BlockId → Option LightClientBlockViewExt := fun _ => some headZero

end NearLC

/-! # Theorems -/

namespace NearLC

/-! ## Claim C10: totality and characterization of `Signature::verify` -/

/-- Claim C10: `Signature::verify` is a total boolean function: an invalid
public key or an unparsable signature yields `false` (never a panic or an
error), and it yields `true` only when the dalek Ed25519 verification of the
message under the parsed key succeeds. -/
theorem signature_verify_total_characterization :
    ∀ (ed : Ed25519Backend) (data sigBytes pkBytes : Bytes),
      (ed.pkFromBytesOk pkBytes = false →
        Signature.verify ed (.ed25519 sigBytes) data (.ed25519 pkBytes) = false) ∧
      (ed.sigFromBytesOk sigBytes = false →
        Signature.verify ed (.ed25519 sigBytes) data (.ed25519 pkBytes) = false) ∧
      (Signature.verify ed (.ed25519 sigBytes) data (.ed25519 pkBytes) = true ↔
        ed.pkFromBytesOk pkBytes = true ∧ ed.sigFromBytesOk sigBytes = true ∧
          ed.verifyOk pkBytes data sigBytes = true) := by
  intro ed data sigBytes pkBytes
  cases hpk : ed.pkFromBytesOk pkBytes <;>
    cases hsig : ed.sigFromBytesOk sigBytes <;>
      simp [Signature.verify, hpk, hsig]

/-- Witness for C10 at a concrete backend that rejects every public key. -/
theorem signature_verify_total_characterization_witness :
    Signature.verify edRejectPk (.ed25519 []) [] (.ed25519 []) = false :=
  (signature_verify_total_characterization edRejectPk [] [] []).1 rfl

/-! ## Claim C5: block hash and approval message formulas -/

/-- Claim C5: `current_block_hash` is
`combine(combine(sha256(borsh(inner_lite)), inner_rest_hash), prev_block_hash)`,
`next_block_hash` is `combine(next_block_inner_hash, current_block_hash)`, and
`approval_message` is the borsh encoding of
`ApprovalInner::Endorsement(next_block_hash)` followed by the little-endian
8-byte encoding of `height + 2`. -/
theorem light_client_block_hash_formulas :
    ∀ (sha256 : Bytes → Bytes) (b : LightClientBlock),
      b.current_block_hash sha256 =
        combine_hash sha256
          (combine_hash sha256 ⟨sha256 b.inner_lite.borsh⟩ b.inner_rest_hash)
          b.prev_block_hash ∧
      b.next_block_hash sha256 =
        combine_hash sha256 b.next_block_inner_hash (b.current_block_hash sha256) ∧
      b.approval_message sha256 =
        (ApprovalInner.endorsement (b.next_block_hash sha256)).borsh ++
          le64 (b.inner_lite.height + 2) :=
  fun _ _ => ⟨rfl, rfl, rfl⟩

/-! ## Claim C6: failing runs do not mutate the client -/

/-- Every run of `validate_and_update_head` either fails with an error and an
empty invocation trace, or succeeds with exactly one `update_head` call
carrying the offered head. -/
theorem validateAndUpdateHead_trace_cases (sha256 : Bytes → Bytes)
    (ed : Ed25519Backend) (c : ClientView) (newHead : LightClientBlockViewExt) :
    (∃ e, validateAndUpdateHead sha256 ed c newHead = (.error e, [])) ∨
      validateAndUpdateHead sha256 ed c newHead = (.ok (), [newHead]) := by
  unfold validateAndUpdateHead
  dsimp only
  repeat' split
  all_goals first
    | exact .inl ⟨_, rfl⟩
    | exact .inr rfl

/-- Claim C6: whenever `validate_and_update_head` returns an error, no
`update_head` invocation happened, so the client state is unchanged;
on success, `update_head` is invoked exactly once, with the offered head. -/
theorem validate_and_update_head_no_mutation_on_error :
    ∀ (sha256 : Bytes → Bytes) (ed : Ed25519Backend) (c : ClientView)
      (newHead : LightClientBlockViewExt),
      (∀ e, (validateAndUpdateHead sha256 ed c newHead).1 = .error e →
        (validateAndUpdateHead sha256 ed c newHead).2 = []) ∧
      ((validateAndUpdateHead sha256 ed c newHead).1 = .ok () →
        (validateAndUpdateHead sha256 ed c newHead).2 = [newHead]) := by
  intro sha256 ed c newHead
  rcases validateAndUpdateHead_trace_cases sha256 ed c newHead with ⟨e, h⟩ | h <;>
    rw [h] <;> simp

/-- Witness for C6 at a client with no latest head: the run fails with
`UninitializedClient` and performs no `update_head` call. -/
theorem validate_and_update_head_no_mutation_on_error_witness :
    (validateAndUpdateHead shaConcrete edAcceptAll clientEmpty headZero).2 = [] :=
  (validate_and_update_head_no_mutation_on_error shaConcrete edAcceptAll
    clientEmpty headZero).1 .uninitializedClient rfl


/-! ## Claim C3: zip semantics of the stake aggregation -/

/-- Mapping the second projection over a zip takes the common prefix of the
second list. -/
theorem map_snd_zip_take {α β : Type} :
    ∀ (a : List α) (b : List β),
      (a.zip b).map Prod.snd = b.take (min a.length b.length)
  | [], b => by simp
  | _ :: _, [] => by simp
  | x :: xs, y :: ys => by
    simp only [List.zip_cons_cons, List.map_cons, List.length_cons,
      Nat.succ_min_succ, List.take_succ_cons, List.cons.injEq, true_and]
    exact map_snd_zip_take xs ys

/-- Zipping ignores everything beyond the common prefix of the two lists. -/
theorem zip_eq_zip_take {α β : Type} :
    ∀ (a : List α) (b : List β),
      a.zip b = (a.take (min a.length b.length)).zip (b.take (min a.length b.length))
  | [], b => by simp
  | _ :: _, [] => by simp
  | x :: xs, y :: ys => by
    simp only [List.zip_cons_cons, List.length_cons, Nat.succ_min_succ,
      List.take_succ_cons, List.cons.injEq, true_and]
    exact zip_eq_zip_take xs ys

/-- If the aggregation loop returns a sum, every present signature among the
pairs verified. -/
theorem aggregateStakes_all_of_ok (ed : Ed25519Backend) (msg : Bytes)
    (pairs : List (Option Signature × ValidatorStakeView)) :
    ∀ (t a : Nat) (r : Nat × Nat),
      aggregateStakes ed msg pairs t a = .ok r →
      ∀ sig bp, (some sig, bp) ∈ pairs →
        Signature.verify ed sig msg bp.into_validator_stake.public_key = true := by
  induction pairs with
  | nil =>
    intro t a r _ sig bp hmem
    simp at hmem
  | cons p rest ih =>
    obtain ⟨maybeSig, bp0⟩ := p
    intro t a r h sig bp hmem
    cases maybeSig with
    | none =>
      simp only [aggregateStakes] at h
      rcases List.mem_cons.mp hmem with heq | hmem'
      · simp at heq
      · exact ih _ _ r h sig bp hmem'
    | some s0 =>
      simp only [aggregateStakes] at h
      by_cases hv : Signature.verify ed s0 msg bp0.into_validator_stake.public_key = true
      · rw [if_pos hv] at h
        rcases List.mem_cons.mp hmem with heq | hmem'
        · simp only [Prod.mk.injEq, Option.some.injEq] at heq
          obtain ⟨h1, h2⟩ := heq
          subst h1
          subst h2
          exact hv
        · exact ih _ _ r h sig bp hmem'
      · rw [if_neg hv] at h
        simp at h

/-- If every present signature among the pairs verifies, the aggregation loop
returns the wrapping sums of all zipped stakes and of the signed stakes. -/
theorem aggregateStakes_ok_of_all (ed : Ed25519Backend) (msg : Bytes)
    (pairs : List (Option Signature × ValidatorStakeView)) :
    ∀ (t a : Nat),
      (∀ sig bp, (some sig, bp) ∈ pairs →
        Signature.verify ed sig msg bp.into_validator_stake.public_key = true) →
      aggregateStakes ed msg pairs t a =
        .ok (sumStakesFrom t (pairs.map Prod.snd),
          sumStakesFrom a (signedProducers pairs)) := by
  induction pairs with
  | nil =>
    intro t a _
    simp [aggregateStakes, sumStakesFrom, signedProducers]
  | cons p rest ih =>
    obtain ⟨maybeSig, bp0⟩ := p
    intro t a hall
    cases maybeSig with
    | none =>
      have hrest := ih ((t + bp0.into_validator_stake.stake) % u128Size) a
        (fun sig bp hmem => hall sig bp (List.mem_cons_of_mem _ hmem))
      simpa [aggregateStakes, sumStakesFrom, signedProducers] using hrest
    | some s0 =>
      have hv := hall s0 bp0 (List.mem_cons_self _ _)
      have hrest := ih ((t + bp0.into_validator_stake.stake) % u128Size)
        ((a + bp0.into_validator_stake.stake) % u128Size)
        (fun sig bp hmem => hall sig bp (List.mem_cons_of_mem _ hmem))
      simpa [aggregateStakes, hv, sumStakesFrom, signedProducers] using hrest

/-- A failing aggregation splits the pairs at the first present signature
that does not verify; the error carries that signature and the public key of
its producer. -/
theorem aggregateStakes_error_split (ed : Ed25519Backend) (msg : Bytes)
    (pairs : List (Option Signature × ValidatorStakeView)) :
    ∀ (t a : Nat) (s : Signature) (k : PublicKey),
      aggregateStakes ed msg pairs t a = .error (s, k) →
      ∃ pre bp post, pairs = pre ++ (some s, bp) :: post ∧
        k = bp.into_validator_stake.public_key ∧
        Signature.verify ed s msg k = false ∧
        ∀ sig' bp', (some sig', bp') ∈ pre →
          Signature.verify ed sig' msg bp'.into_validator_stake.public_key = true := by
  induction pairs with
  | nil =>
    intro t a s k h
    simp [aggregateStakes] at h
  | cons p rest ih =>
    obtain ⟨maybeSig, bp0⟩ := p
    intro t a s k h
    cases maybeSig with
    | none =>
      simp only [aggregateStakes] at h
      obtain ⟨pre, bp, post, hsplit, hk, hfail, hpre⟩ := ih _ _ s k h
      refine ⟨(none, bp0) :: pre, bp, post, by simp [hsplit], hk, hfail, ?_⟩
      intro sig' bp' hmem
      rcases List.mem_cons.mp hmem with heq | hmem'
      · simp at heq
      · exact hpre sig' bp' hmem'
    | some s0 =>
      simp only [aggregateStakes] at h
      by_cases hv : Signature.verify ed s0 msg bp0.into_validator_stake.public_key = true
      · rw [if_pos hv] at h
        obtain ⟨pre, bp, post, hsplit, hk, hfail, hpre⟩ := ih _ _ s k h
        refine ⟨(some s0, bp0) :: pre, bp, post, by simp [hsplit], hk, hfail, ?_⟩
        intro sig' bp' hmem
        rcases List.mem_cons.mp hmem with heq | hmem'
        · simp only [Prod.mk.injEq, Option.some.injEq] at heq
          obtain ⟨h1, h2⟩ := heq
          subst h1
          subst h2
          exact hv
        · exact hpre sig' bp' hmem'
      · rw [if_neg hv] at h
        simp only [Except.error.injEq, Prod.mk.injEq] at h
        obtain ⟨h1, h2⟩ := h
        refine ⟨[], bp0, rest, by simp [h1], h2.symm, ?_, by simp⟩
        rw [← h1, ← h2]
        simpa using hv

/-- Claim C3: the aggregation of `validate_and_update_head` runs over the
pairwise zip of `approvals_after_next` with the resolved producers, which is
the common prefix when the lengths differ, so elements beyond the shorter
list contribute to neither sum; it returns the wrapping `u128` sums of all
zipped stakes and of the stakes with a present signature exactly when every
present signature verifies; and it aborts at the first present signature
that fails, carrying that signature and the public key of its producer. -/
theorem aggregation_zip_semantics :
    ∀ (ed : Ed25519Backend) (msg : Bytes) (approvals : List (Option Signature))
      (producers : List ValidatorStakeView),
      approvals.zip producers =
        (approvals.take (min approvals.length producers.length)).zip
          (producers.take (min approvals.length producers.length)) ∧
      (aggregateStakes ed msg (approvals.zip producers) 0 0 =
          .ok (sumStakesMod (producers.take (min approvals.length producers.length)),
            sumStakesMod (signedProducers (approvals.zip producers))) ↔
        ∀ sig bp, (some sig, bp) ∈ approvals.zip producers →
          Signature.verify ed sig msg bp.into_validator_stake.public_key = true) ∧
      (∀ s k, aggregateStakes ed msg (approvals.zip producers) 0 0 = .error (s, k) →
        ∃ pre bp post, approvals.zip producers = pre ++ (some s, bp) :: post ∧
          k = bp.into_validator_stake.public_key ∧
          Signature.verify ed s msg k = false ∧
          ∀ sig' bp', (some sig', bp') ∈ pre →
            Signature.verify ed sig' msg bp'.into_validator_stake.public_key = true) := by
  intro ed msg approvals producers
  refine ⟨zip_eq_zip_take approvals producers, ⟨?_, ?_⟩, ?_⟩
  · intro h
    exact aggregateStakes_all_of_ok ed msg _ 0 0 _ h
  · intro hall
    have h := aggregateStakes_ok_of_all ed msg (approvals.zip producers) 0 0 hall
    rw [map_snd_zip_take approvals producers] at h
    exact h
  · intro s k h
    exact aggregateStakes_error_split ed msg _ 0 0 s k h

/-- Witness for C3: two producers of stake 3, the first signing with a
trivially accepted signature; the aggregation returns total 6 and approved
3. -/
theorem aggregation_zip_semantics_witness :
    aggregateStakes edAcceptAll [] ([some (.ed25519 []), none].zip producersSmall) 0 0 =
      .ok (6, 3) := by
  have h := (aggregation_zip_semantics edAcceptAll [] [some (.ed25519 []), none]
    producersSmall).2.1.mpr
  have hall : ∀ sig bp,
      (some sig, bp) ∈ [some (Signature.ed25519 []), none].zip producersSmall →
      Signature.verify edAcceptAll sig [] bp.into_validator_stake.public_key = true := by
    intro sig bp hmem
    have hz : [some (Signature.ed25519 []), none].zip producersSmall =
        [(some (Signature.ed25519 []), ValidatorStakeView.v1 ⟨[], .ed25519 [], 3⟩),
          (none, ValidatorStakeView.v1 ⟨[], .ed25519 [], 3⟩)] := rfl
    rw [hz] at hmem
    simp only [List.mem_cons, List.not_mem_nil, or_false] at hmem
    rcases hmem with heq | heq
    · simp only [Prod.mk.injEq, Option.some.injEq] at heq
      obtain ⟨h1, h2⟩ := heq
      subst h1
      subst h2
      rfl
    · simp at heq
  rw [h hall]
  decide

/-! ## Claim C1: the finality threshold -/

/-- Counterexample to claim C1 as stated: with two producers of stake
`2 ^ 126` and only one of them signing, the approved stake is exactly half
of the total stake, so `approved * 3 > total * 2` fails over exact integers
and the claim demands `BlockIsNotFinal`; but the code computes the threshold
as `total_stake * 2 / 3` in wrapping `u128` arithmetic, `2 ^ 127 * 2` wraps
to 0, and the run succeeds. -/
theorem finality_threshold_claim_counterexample :
    aggregateStakes edAcceptAll
        (newHeadFinality.light_client_block_view.approval_message shaConst)
        (newHeadFinality.light_client_block_view.approvals_after_next.zip producersHuge)
        0 0 = .ok (2 ^ 127, 2 ^ 126) ∧
    2 ^ 126 * 3 ≤ 2 ^ 127 * 2 ∧
    (validateAndUpdateHead shaConst edAcceptAll clientHuge newHeadFinality).1 =
      .ok () := by
  refine ⟨by decide, by decide, by decide⟩

/-- Claim C1 (amended): provided `total_stake * 2` does not overflow `u128`,
a run of `validate_and_update_head` that reaches the stake aggregation fails
with `BlockIsNotFinal` exactly when `approved_stake * 3 ≤ total_stake * 2`
over exact integers, i.e. the integer-division comparison
`approved_stake <= total_stake * 2 / 3` decides the same predicate as the
strict two-thirds test; without that proviso the wrapped product makes the
code accept stakes the exact threshold rejects (see the counterexample). -/
theorem finality_threshold_exact :
    ∀ (sha256 : Bytes → Bytes) (ed : Ed25519Backend) (c : ClientView)
      (newHead latestHead : LightClientBlockViewExt)
      (producers : List ValidatorStakeView) (totalStake approvedStake : Nat),
      c.latestHead = some latestHead →
      latestHead.light_client_block_view.inner_lite.height <
        newHead.light_client_block_view.inner_lite.height →
      (newHead.light_client_block_view.inner_lite.epoch_id =
          latestHead.light_client_block_view.inner_lite.epoch_id ∨
        newHead.light_client_block_view.inner_lite.epoch_id =
          latestHead.light_client_block_view.inner_lite.next_epoch_id) →
      (newHead.light_client_block_view.inner_lite.epoch_id =
          latestHead.light_client_block_view.inner_lite.next_epoch_id →
        newHead.light_client_block_view.next_bps ≠ none) →
      c.epochBlockProducers newHead.light_client_block_view.inner_lite.epoch_id =
        some producers →
      aggregateStakes ed (newHead.light_client_block_view.approval_message sha256)
        (newHead.light_client_block_view.approvals_after_next.zip producers) 0 0 =
        .ok (totalStake, approvedStake) →
      totalStake * 2 < u128Size →
      ((validateAndUpdateHead sha256 ed c newHead).1 = .error .blockIsNotFinal ↔
        approvedStake * 3 ≤ totalStake * 2) := by
  intro sha256 ed c newHead latestHead producers totalStake approvedStake
  intro hlatest hheight hepoch hbps hproducers haggr hnoflow
  unfold validateAndUpdateHead
  rw [hlatest]
  dsimp only
  rw [if_neg (by omega)]
  rw [if_neg (by tauto)]
  rw [if_neg (by rintro ⟨h1, h2⟩; exact hbps h1 h2)]
  rw [hproducers]
  dsimp only
  rw [haggr]
  dsimp only
  rw [Nat.mod_eq_of_lt hnoflow]
  by_cases hle : approvedStake ≤ totalStake * 2 / 3
  · rw [if_pos hle]
    exact iff_of_true rfl ((Nat.le_div_iff_mul_le (by norm_num)).mp hle)
  · rw [if_neg hle]
    have h2 : ¬ approvedStake * 3 ≤ totalStake * 2 :=
      fun hc => hle ((Nat.le_div_iff_mul_le (by norm_num)).mpr hc)
    refine iff_of_false ?_ h2
    dsimp only
    split
    · split
      · simp
      · split <;> simp
    · split <;> simp

/-- Witness for the amended C1: with two producers of stake 3 and one
signing, `3 * 3 ≤ 6 * 2`, and the run indeed fails with `BlockIsNotFinal`. -/
theorem finality_threshold_exact_witness :
    (validateAndUpdateHead shaConcrete edAcceptAll clientSmall newHeadFinality).1 =
      .error .blockIsNotFinal :=
  (finality_threshold_exact shaConcrete edAcceptAll clientSmall newHeadFinality
    headZero producersSmall 6 3 rfl (by decide) (Or.inl rfl)
    (fun h => absurd h (by decide)) rfl (by decide) (by decide)).mpr (by decide)

/-! ## Claim C2: characterization of `verify_state_proof` -/

/-- A successful membership loop run yields a membership walk derivation. -/
theorem verifyStateProofLoop_ok_imp (sha256 : Bytes → Bytes) (value : Bytes)
    (nodes : List RawTrieNodeWithSize) :
    ∀ (cursor : List Nat) (expected : CryptoHash) (i : Nat),
      verifyStateProofLoop sha256 value nodes cursor expected i = .ok () →
      MembershipWalkOk sha256 value nodes cursor expected := by
  induction nodes with
  | nil =>
    intro cursor expected i h
    simp [verifyStateProofLoop] at h
  | cons n rest ih =>
    intro cursor expected i h
    cases hn : n.node with
    | leaf nodeKey vlen valueHash =>
      simp only [verifyStateProofLoop, hn] at h
      by_cases hh : hash_node sha256 n = expected
      · rw [if_neg (not_not_intro hh)] at h
        by_cases hc : cursor = (fromEncoded nodeKey).1
        · rw [if_neg (not_not_intro hc)] at h
          by_cases hv : (⟨sha256 value⟩ : CryptoHash) = valueHash
          · rw [← hv] at hn
            exact .leafHit n rest nodeKey vlen cursor expected hn hh hc.symm
          · rw [if_neg hv] at h
            exact absurd h (by simp)
        · rw [if_pos hc] at h
          exact absurd h (by simp)
      · rw [if_pos hh] at h
        exact absurd h (by simp)
    | branch children nodeValue =>
      simp only [verifyStateProofLoop, hn] at h
      by_cases hh : hash_node sha256 n = expected
      · rw [if_neg (not_not_intro hh)] at h
        cases cursor with
        | nil =>
          dsimp only at h
          cases nodeValue with
          | none => simp at h
          | some v =>
            dsimp only at h
            by_cases hv : (⟨sha256 value⟩ : CryptoHash) = v.2
            · have hn' : n.node = .branch children (some (v.1, ⟨sha256 value⟩)) := by
                rw [hn, hv]
              exact .branchValueHit n rest children v.1 expected hn' hh
            · rw [if_neg hv] at h
              simp at h
        | cons nb keyRest =>
          dsimp only at h
          cases hchild : children.getD nb none with
          | none =>
            rw [hchild] at h
            simp at h
          | some childHash =>
            rw [hchild] at h
            exact .branchStep n rest children nodeValue nb keyRest childHash expected
              hn hh hchild (ih keyRest childHash (i + 1) h)
      · rw [if_pos hh] at h
        simp at h
    | extension nodeKey childHash =>
      simp only [verifyStateProofLoop, hn] at h
      by_cases hh : hash_node sha256 n = expected
      · rw [if_neg (not_not_intro hh)] at h
        by_cases hp : (fromEncoded nodeKey).1.isPrefixOf cursor = true
        · rw [if_neg (not_not_intro hp)] at h
          exact .extensionStep n rest nodeKey childHash cursor expected hn hh hp
            (ih _ childHash (i + 1) h)
        · rw [if_pos hp] at h
          exact absurd h (by simp)
      · rw [if_pos hh] at h
        exact absurd h (by simp)

/-- A membership walk derivation makes the membership loop succeed, from any
starting node index. -/
theorem verifyStateProofLoop_ok_of_walk (sha256 : Bytes → Bytes) (value : Bytes)
    (nodes : List RawTrieNodeWithSize) (cursor : List Nat) (expected : CryptoHash)
    (hwalk : MembershipWalkOk sha256 value nodes cursor expected) :
    ∀ i : Nat, verifyStateProofLoop sha256 value nodes cursor expected i = .ok () := by
  induction hwalk with
  | leafHit n rest nodeKey vlen cursor expected hnode hhash hkey =>
    intro i
    simp only [verifyStateProofLoop, hnode]
    rw [if_neg (not_not_intro hhash), if_neg (not_not_intro hkey.symm)]
    simp
  | branchValueHit n rest children vlen expected hnode hhash =>
    intro i
    simp only [verifyStateProofLoop, hnode]
    rw [if_neg (not_not_intro hhash)]
    simp
  | extensionStep n rest nodeKey childHash cursor expected hnode hhash hpre _ ihw =>
    intro i
    simp only [verifyStateProofLoop, hnode]
    rw [if_neg (not_not_intro hhash), if_neg (not_not_intro hpre)]
    exact ihw (i + 1)
  | branchStep n rest children nodeValue nb cursor childHash expected hnode hhash hchild _ ihw =>
    intro i
    simp only [verifyStateProofLoop, hnode]
    rw [if_neg (not_not_intro hhash), hchild]
    exact ihw (i + 1)

/-- Errors of the membership loop are either an `InvalidProofData` carrying a
node index within the walked range, or the exhaustion error. -/
theorem verifyStateProofLoop_error_classify (sha256 : Bytes → Bytes) (value : Bytes)
    (nodes : List RawTrieNodeWithSize) :
    ∀ (cursor : List Nat) (expected : CryptoHash) (i : Nat)
      (e : StateProofVerificationError),
      verifyStateProofLoop sha256 value nodes cursor expected i = .error e →
      (∃ j, e = .invalidProofData j ∧ i ≤ j ∧ j < i + nodes.length) ∨
        e = .invalidProofDataLength := by
  induction nodes with
  | nil =>
    intro cursor expected i e h
    simp only [verifyStateProofLoop, Except.error.injEq] at h
    exact .inr h.symm
  | cons n rest ih =>
    intro cursor expected i e h
    have hstep : ∀ cursor' expected',
        verifyStateProofLoop sha256 value rest cursor' expected' (i + 1) = .error e →
        (∃ j, e = .invalidProofData j ∧ i ≤ j ∧ j < i + (n :: rest).length) ∨
          e = .invalidProofDataLength := by
      intro cursor' expected' h'
      rcases ih cursor' expected' (i + 1) e h' with ⟨j, hj, hj1, hj2⟩ | hlen
      · exact .inl ⟨j, hj, by omega, by simp only [List.length_cons]; omega⟩
      · exact .inr hlen
    have hhere : (.invalidProofData i : StateProofVerificationError) = e →
        (∃ j, e = .invalidProofData j ∧ i ≤ j ∧ j < i + (n :: rest).length) ∨
          e = .invalidProofDataLength := by
      intro he
      exact .inl ⟨i, he.symm, le_rfl, by simp only [List.length_cons]; omega⟩
    cases hn : n.node with
    | leaf nodeKey vlen valueHash =>
      simp only [verifyStateProofLoop, hn] at h
      split at h
      · exact hhere (Except.error.injEq .. ▸ h)
      · split at h
        · exact hhere (Except.error.injEq .. ▸ h)
        · split at h
          · exact absurd h (by simp)
          · exact hhere (Except.error.injEq .. ▸ h)
    | branch children nodeValue =>
      simp only [verifyStateProofLoop, hn] at h
      split at h
      · exact hhere (Except.error.injEq .. ▸ h)
      · split at h
        · split at h
          · split at h
            · exact absurd h (by simp)
            · exact hhere (Except.error.injEq .. ▸ h)
          · exact hhere (Except.error.injEq .. ▸ h)
        · split at h
          · exact hstep _ _ h
          · exact hhere (Except.error.injEq .. ▸ h)
    | extension nodeKey childHash =>
      simp only [verifyStateProofLoop, hn] at h
      split at h
      · exact hhere (Except.error.injEq .. ▸ h)
      · split at h
        · exact hhere (Except.error.injEq .. ▸ h)
        · exact hstep _ _ h

/-- A walk that consumes every node without a verdict drives the membership
loop to the exhaustion error. -/
theorem verifyStateProofLoop_of_steps (sha256 : Bytes → Bytes) (value : Bytes)
    (nodes : List RawTrieNodeWithSize) (cursor : List Nat) (expected : CryptoHash)
    (hsteps : WalkSteps sha256 nodes cursor expected) :
    ∀ i : Nat, verifyStateProofLoop sha256 value nodes cursor expected i =
      .error .invalidProofDataLength := by
  induction hsteps with
  | nil cursor expected =>
    intro i
    rfl
  | extensionStep n rest nodeKey childHash cursor expected hnode hhash hpre _ ihw =>
    intro i
    simp only [verifyStateProofLoop, hnode]
    rw [if_neg (not_not_intro hhash), if_neg (not_not_intro hpre)]
    exact ihw (i + 1)
  | branchStep n rest children nodeValue nb cursor childHash expected hnode hhash hchild _ ihw =>
    intro i
    simp only [verifyStateProofLoop, hnode]
    rw [if_neg (not_not_intro hhash), hchild]
    exact ihw (i + 1)

/-- Claim C2: `verify_state_proof` succeeds exactly when the in-order walk of
the node list against the nibble cursor of the key terminates at a hash-valid
leaf matching the whole remaining cursor with value hash `sha256 value`, or
at a hash-valid branch reached with an empty cursor whose value slot carries
`sha256 value`; every per-node error carries the zero-based index of the
offending node (below the list length), the only other error being
`InvalidProofDataLength`; and a walk that consumes the whole list without a
verdict returns `InvalidProofDataLength`. -/
theorem verify_state_proof_characterization :
    ∀ (sha256 : Bytes → Bytes) (key value : Bytes)
      (nodes : List RawTrieNodeWithSize) (root : CryptoHash),
      (verify_state_proof sha256 key nodes value root = .ok () ↔
        MembershipWalkOk sha256 value nodes (nibblesOfBytes key) root) ∧
      (∀ e, verify_state_proof sha256 key nodes value root = .error e →
        (∃ i, e = .invalidProofData i ∧ i < nodes.length) ∨
          e = .invalidProofDataLength) ∧
      (WalkSteps sha256 nodes (nibblesOfBytes key) root →
        verify_state_proof sha256 key nodes value root =
          .error .invalidProofDataLength) := by
  intro sha256 key value nodes root
  refine ⟨⟨fun h => verifyStateProofLoop_ok_imp sha256 value nodes _ root 0 h,
    fun h => verifyStateProofLoop_ok_of_walk sha256 value nodes _ root h 0⟩, ?_, ?_⟩
  · intro e h
    rcases verifyStateProofLoop_error_classify sha256 value nodes _ root 0 e h with
      ⟨j, hj, _, hj2⟩ | hlen
    · exact .inl ⟨j, hj, by omega⟩
    · exact .inr hlen
  · intro hsteps
    exact verifyStateProofLoop_of_steps sha256 value nodes _ root hsteps 0

/-- Witness for C2 at the empty proof list: the walk trivially consumes the
list, and the verdict is the exhaustion error. -/
theorem verify_state_proof_characterization_witness :
    verify_state_proof shaConcrete [] [] [] CryptoHash.zero =
      .error .invalidProofDataLength :=
  (verify_state_proof_characterization shaConcrete [] [] [] CryptoHash.zero).2.2
    (.nil _ _)

/-! ## Claim C4: characterization of `verify_not_in_state` -/

/-- A successful non-membership loop run yields a divergence derivation (in
the amended sense that includes the empty-cursor valueless branch). -/
theorem verifyNotInStateLoop_ok_imp (sha256 : Bytes → Bytes)
    (nodes : List RawTrieNodeWithSize) :
    ∀ (cursor : List Nat) (expected : CryptoHash) (i : Nat),
      verifyNotInStateLoop sha256 nodes cursor expected i = .ok () →
      NonMemDiverges sha256 nodes cursor expected := by
  induction nodes with
  | nil =>
    intro cursor expected i h
    simp [verifyNotInStateLoop] at h
  | cons n rest ih =>
    intro cursor expected i h
    cases hn : n.node with
    | leaf nodeKey vlen valueHash =>
      simp only [verifyNotInStateLoop, hn] at h
      by_cases hh : hash_node sha256 n = expected
      · rw [if_neg (not_not_intro hh)] at h
        by_cases hc : cursor = (fromEncoded nodeKey).1
        · rw [if_neg (not_not_intro hc)] at h
          simp at h
        · exact .leafDiff n rest nodeKey vlen valueHash cursor expected hn hh
            fun he => hc he.symm
      · rw [if_pos hh] at h
        simp at h
    | branch children nodeValue =>
      simp only [verifyNotInStateLoop, hn] at h
      by_cases hh : hash_node sha256 n = expected
      · rw [if_neg (not_not_intro hh)] at h
        cases cursor with
        | nil =>
          dsimp only at h
          cases nodeValue with
          | none => exact .branchNoValue n rest children expected hn hh
          | some v => simp at h
        | cons nb keyRest =>
          dsimp only at h
          cases hchild : children.getD nb none with
          | none =>
            exact .branchAbsent n rest children nodeValue nb keyRest expected hn hh hchild
          | some childHash =>
            rw [hchild] at h
            exact .branchStep n rest children nodeValue nb keyRest childHash expected
              hn hh hchild (ih keyRest childHash (i + 1) h)
      · rw [if_pos hh] at h
        simp at h
    | extension nodeKey childHash =>
      simp only [verifyNotInStateLoop, hn] at h
      by_cases hh : hash_node sha256 n = expected
      · rw [if_neg (not_not_intro hh)] at h
        by_cases hp : (fromEncoded nodeKey).1.isPrefixOf cursor = true
        · rw [if_neg (not_not_intro hp)] at h
          exact .extensionStep n rest nodeKey childHash cursor expected hn hh hp
            (ih _ childHash (i + 1) h)
        · exact .extDiverge n rest nodeKey childHash cursor expected hn hh
            (Bool.eq_false_iff.mpr hp)
      · rw [if_pos hh] at h
        simp at h

/-- A divergence derivation makes the non-membership loop succeed, from any
starting node index. -/
theorem verifyNotInStateLoop_ok_of_div (sha256 : Bytes → Bytes)
    (nodes : List RawTrieNodeWithSize) (cursor : List Nat) (expected : CryptoHash)
    (hdiv : NonMemDiverges sha256 nodes cursor expected) :
    ∀ i : Nat, verifyNotInStateLoop sha256 nodes cursor expected i = .ok () := by
  induction hdiv with
  | leafDiff n rest nodeKey vlen vhash cursor expected hnode hhash hne =>
    intro i
    simp only [verifyNotInStateLoop, hnode]
    rw [if_neg (not_not_intro hhash), if_pos fun he => hne he.symm]
  | extDiverge n rest nodeKey childHash cursor expected hnode hhash hfalse =>
    intro i
    simp only [verifyNotInStateLoop, hnode]
    rw [if_neg (not_not_intro hhash), if_pos (by simp [hfalse])]
  | branchAbsent n rest children nodeValue nb cursor expected hnode hhash hchild =>
    intro i
    simp only [verifyNotInStateLoop, hnode]
    rw [if_neg (not_not_intro hhash), hchild]
  | branchNoValue n rest children expected hnode hhash =>
    intro i
    simp only [verifyNotInStateLoop, hnode]
    rw [if_neg (not_not_intro hhash)]
  | extensionStep n rest nodeKey childHash cursor expected hnode hhash hpre _ ihw =>
    intro i
    simp only [verifyNotInStateLoop, hnode]
    rw [if_neg (not_not_intro hhash), if_neg (not_not_intro hpre)]
    exact ihw (i + 1)
  | branchStep n rest children nodeValue nb cursor childHash expected hnode hhash hchild _ ihw =>
    intro i
    simp only [verifyNotInStateLoop, hnode]
    rw [if_neg (not_not_intro hhash), hchild]
    exact ihw (i + 1)

/-- A `SpecifiedKeyHasValueInState` verdict of the non-membership loop yields
a termination derivation. -/
theorem verifyNotInStateLoop_hasvalue_imp (sha256 : Bytes → Bytes)
    (nodes : List RawTrieNodeWithSize) :
    ∀ (cursor : List Nat) (expected : CryptoHash) (i : Nat),
      verifyNotInStateLoop sha256 nodes cursor expected i =
        .error .specifiedKeyHasValueInState →
      NonMemHasValue sha256 nodes cursor expected := by
  induction nodes with
  | nil =>
    intro cursor expected i h
    simp [verifyNotInStateLoop] at h
  | cons n rest ih =>
    intro cursor expected i h
    cases hn : n.node with
    | leaf nodeKey vlen valueHash =>
      simp only [verifyNotInStateLoop, hn] at h
      by_cases hh : hash_node sha256 n = expected
      · rw [if_neg (not_not_intro hh)] at h
        by_cases hc : cursor = (fromEncoded nodeKey).1
        · exact .leafEq n rest nodeKey vlen valueHash cursor expected hn hh hc.symm
        · rw [if_pos hc] at h
          simp at h
      · rw [if_pos hh] at h
        simp at h
    | branch children nodeValue =>
      simp only [verifyNotInStateLoop, hn] at h
      by_cases hh : hash_node sha256 n = expected
      · rw [if_neg (not_not_intro hh)] at h
        cases cursor with
        | nil =>
          dsimp only at h
          cases nodeValue with
          | none => simp at h
          | some v => exact .branchValue n rest children v expected hn hh
        | cons nb keyRest =>
          dsimp only at h
          cases hchild : children.getD nb none with
          | none =>
            rw [hchild] at h
            simp at h
          | some childHash =>
            rw [hchild] at h
            exact .branchStep n rest children nodeValue nb keyRest childHash expected
              hn hh hchild (ih keyRest childHash (i + 1) h)
      · rw [if_pos hh] at h
        simp at h
    | extension nodeKey childHash =>
      simp only [verifyNotInStateLoop, hn] at h
      by_cases hh : hash_node sha256 n = expected
      · rw [if_neg (not_not_intro hh)] at h
        by_cases hp : (fromEncoded nodeKey).1.isPrefixOf cursor = true
        · rw [if_neg (not_not_intro hp)] at h
          exact .extensionStep n rest nodeKey childHash cursor expected hn hh hp
            (ih _ childHash (i + 1) h)
        · rw [if_pos hp] at h
          simp at h
      · rw [if_pos hh] at h
        simp at h

/-- A termination derivation drives the non-membership loop to the
`SpecifiedKeyHasValueInState` error, from any starting node index. -/
theorem verifyNotInStateLoop_error_of_hasvalue (sha256 : Bytes → Bytes)
    (nodes : List RawTrieNodeWithSize) (cursor : List Nat) (expected : CryptoHash)
    (hval : NonMemHasValue sha256 nodes cursor expected) :
    ∀ i : Nat, verifyNotInStateLoop sha256 nodes cursor expected i =
      .error .specifiedKeyHasValueInState := by
  induction hval with
  | leafEq n rest nodeKey vlen vhash cursor expected hnode hhash hkey =>
    intro i
    simp only [verifyNotInStateLoop, hnode]
    rw [if_neg (not_not_intro hhash), if_neg (not_not_intro hkey.symm)]
  | branchValue n rest children v expected hnode hhash =>
    intro i
    simp only [verifyNotInStateLoop, hnode]
    rw [if_neg (not_not_intro hhash)]
  | extensionStep n rest nodeKey childHash cursor expected hnode hhash hpre _ ihw =>
    intro i
    simp only [verifyNotInStateLoop, hnode]
    rw [if_neg (not_not_intro hhash), if_neg (not_not_intro hpre)]
    exact ihw (i + 1)
  | branchStep n rest children nodeValue nb cursor childHash expected hnode hhash hchild _ ihw =>
    intro i
    simp only [verifyNotInStateLoop, hnode]
    rw [if_neg (not_not_intro hhash), hchild]
    exact ihw (i + 1)

/-- Errors of the non-membership loop are an indexed `InvalidProofData`
within the walked range, the exhaustion error, or
`SpecifiedKeyHasValueInState`. -/
theorem verifyNotInStateLoop_error_classify (sha256 : Bytes → Bytes)
    (nodes : List RawTrieNodeWithSize) :
    ∀ (cursor : List Nat) (expected : CryptoHash) (i : Nat)
      (e : StateProofVerificationError),
      verifyNotInStateLoop sha256 nodes cursor expected i = .error e →
      (∃ j, e = .invalidProofData j ∧ i ≤ j ∧ j < i + nodes.length) ∨
        e = .invalidProofDataLength ∨ e = .specifiedKeyHasValueInState := by
  induction nodes with
  | nil =>
    intro cursor expected i e h
    simp only [verifyNotInStateLoop, Except.error.injEq] at h
    exact .inr (.inl h.symm)
  | cons n rest ih =>
    intro cursor expected i e h
    have hstep : ∀ cursor' expected',
        verifyNotInStateLoop sha256 rest cursor' expected' (i + 1) = .error e →
        (∃ j, e = .invalidProofData j ∧ i ≤ j ∧ j < i + (n :: rest).length) ∨
          e = .invalidProofDataLength ∨ e = .specifiedKeyHasValueInState := by
      intro cursor' expected' h'
      rcases ih cursor' expected' (i + 1) e h' with ⟨j, hj, hj1, hj2⟩ | hrest
      · exact .inl ⟨j, hj, by omega, by simp only [List.length_cons]; omega⟩
      · exact .inr hrest
    have hhere : (.invalidProofData i : StateProofVerificationError) = e →
        (∃ j, e = .invalidProofData j ∧ i ≤ j ∧ j < i + (n :: rest).length) ∨
          e = .invalidProofDataLength ∨ e = .specifiedKeyHasValueInState := by
      intro he
      exact .inl ⟨i, he.symm, le_rfl, by simp only [List.length_cons]; omega⟩
    have hkey : (.specifiedKeyHasValueInState : StateProofVerificationError) = e →
        (∃ j, e = .invalidProofData j ∧ i ≤ j ∧ j < i + (n :: rest).length) ∨
          e = .invalidProofDataLength ∨ e = .specifiedKeyHasValueInState := by
      intro he
      exact .inr (.inr he.symm)
    cases hn : n.node with
    | leaf nodeKey vlen valueHash =>
      simp only [verifyNotInStateLoop, hn] at h
      split at h
      · exact hhere (Except.error.injEq .. ▸ h)
      · split at h
        · exact absurd h (by simp)
        · exact hkey (Except.error.injEq .. ▸ h)
    | branch children nodeValue =>
      simp only [verifyNotInStateLoop, hn] at h
      split at h
      · exact hhere (Except.error.injEq .. ▸ h)
      · split at h
        · split at h
          · exact hkey (Except.error.injEq .. ▸ h)
          · exact absurd h (by simp)
        · split at h
          · exact hstep _ _ h
          · exact absurd h (by simp)
    | extension nodeKey childHash =>
      simp only [verifyNotInStateLoop, hn] at h
      split at h
      · exact hhere (Except.error.injEq .. ▸ h)
      · split at h
        · exact absurd h (by simp)
        · exact hstep _ _ h

/-- A walk that consumes every node without a verdict drives the
non-membership loop to the exhaustion error. -/
theorem verifyNotInStateLoop_of_steps (sha256 : Bytes → Bytes)
    (nodes : List RawTrieNodeWithSize) (cursor : List Nat) (expected : CryptoHash)
    (hsteps : WalkSteps sha256 nodes cursor expected) :
    ∀ i : Nat, verifyNotInStateLoop sha256 nodes cursor expected i =
      .error .invalidProofDataLength := by
  induction hsteps with
  | nil cursor expected =>
    intro i
    rfl
  | extensionStep n rest nodeKey childHash cursor expected hnode hhash hpre _ ihw =>
    intro i
    simp only [verifyNotInStateLoop, hnode]
    rw [if_neg (not_not_intro hhash), if_neg (not_not_intro hpre)]
    exact ihw (i + 1)
  | branchStep n rest children nodeValue nb cursor childHash expected hnode hhash hchild _ ihw =>
    intro i
    simp only [verifyNotInStateLoop, hnode]
    rw [if_neg (not_not_intro hhash), hchild]
    exact ihw (i + 1)

/-- Counterexample to claim C4 as stated: a proof list consisting of a single
hash-valid branch node with no children and no value, walked with the empty
key, makes `verify_not_in_state` return `Ok`, yet none of the three
divergence cases enumerated by the claim applies (the cursor is empty, so
there is no "needed nibble", the node is not a leaf and not an extension). -/
theorem verify_not_in_state_claim_counterexample :
    verify_not_in_state shaConst [] [emptyBranchNode] emptyBranchRoot = .ok () ∧
      ¬ NonMemDivergesClaim shaConst [emptyBranchNode] (nibblesOfBytes []) emptyBranchRoot := by
  constructor
  · rfl
  · intro h
    cases h <;> simp_all [emptyBranchNode, nibblesOfBytes]

/-- Claim C4 (amended): `verify_not_in_state` succeeds exactly when the walk
diverges from the key — a hash-valid leaf whose nibble key differs from the
remaining cursor, a hash-valid extension whose nibbles are not a prefix of
the remaining cursor, a hash-valid branch whose child slot at the needed
nibble is absent, or (the case the claim omits) a hash-valid branch reached
with an empty cursor whose value slot is absent; it returns
`SpecifiedKeyHasValueInState` exactly when the cursor terminates at a leaf
whose key equals the remaining cursor or at a branch reached with an empty
cursor whose value slot is present; hash-mismatch errors carry the zero-based
node index, and exhausting the list yields `InvalidProofDataLength`. -/
theorem verify_not_in_state_characterization :
    ∀ (sha256 : Bytes → Bytes) (key : Bytes)
      (nodes : List RawTrieNodeWithSize) (root : CryptoHash),
      (verify_not_in_state sha256 key nodes root = .ok () ↔
        NonMemDiverges sha256 nodes (nibblesOfBytes key) root) ∧
      (verify_not_in_state sha256 key nodes root =
          .error .specifiedKeyHasValueInState ↔
        NonMemHasValue sha256 nodes (nibblesOfBytes key) root) ∧
      (∀ i, verify_not_in_state sha256 key nodes root =
          .error (.invalidProofData i) → i < nodes.length) ∧
      (WalkSteps sha256 nodes (nibblesOfBytes key) root →
        verify_not_in_state sha256 key nodes root =
          .error .invalidProofDataLength) := by
  intro sha256 key nodes root
  refine ⟨⟨fun h => verifyNotInStateLoop_ok_imp sha256 nodes _ root 0 h,
    fun h => verifyNotInStateLoop_ok_of_div sha256 nodes _ root h 0⟩,
    ⟨fun h => verifyNotInStateLoop_hasvalue_imp sha256 nodes _ root 0 h,
    fun h => verifyNotInStateLoop_error_of_hasvalue sha256 nodes _ root h 0⟩, ?_, ?_⟩
  · intro i h
    rcases verifyNotInStateLoop_error_classify sha256 nodes _ root 0 _ h with
      ⟨j, hj, _, hj2⟩ | hother | hother
    · cases hj
      omega
    · exact absurd hother (by simp)
    · exact absurd hother (by simp)
  · intro hsteps
    exact verifyNotInStateLoop_of_steps sha256 nodes _ root hsteps 0

/-- Witness for the amended C4 at the empty proof list: the walk trivially
consumes the list and the verdict is the exhaustion error. -/
theorem verify_not_in_state_characterization_witness :
    verify_not_in_state shaConcrete [7] [] CryptoHash.zero =
      .error .invalidProofDataLength :=
  (verify_not_in_state_characterization shaConcrete [7] [] CryptoHash.zero).2.2.2
    (.nil _ _)

/-! ## Claim C8: eviction removes the smallest cached height -/

/-- In a list sorted by `≤`, every member is at most the last element. -/
theorem sorted_le_getLast? :
    ∀ (l : List Nat) (a : Nat), l.Sorted (· ≤ ·) → l.getLast? = some a →
      ∀ x ∈ l, x ≤ a
  | [], _, _, hlast, _, _ => by simp at hlast
  | [b], a, _, hlast, x, hx => by
    have hba : b = a := by simpa using hlast
    have hxb : x = b := by simpa using hx
    omega
  | b :: c :: t, a, hsorted, hlast, x, hx => by
    rw [List.getLast?_cons_cons] at hlast
    obtain ⟨hble, htail⟩ := List.sorted_cons.mp hsorted
    rcases List.mem_cons.mp hx with hxb | hxt
    · subst hxb
      exact hble a (List.mem_of_getLast?_eq_some hlast)
    · exact sorted_le_getLast? (c :: t) a htail hlast x hxt

/-- Every reachable sample-client state has its cached heights sorted
ascending: `LightClient::new` sorts them, `update_head` only appends a
strictly larger height, and eviction drops the front. -/
theorem reachable_sorted (c : SampleLightClient)
    (hreach : SampleLightClient.Reachable c) :
    c.cached_heights.Sorted (· ≤ ·) := by
  induction hreach with
  | new hs hsorted => exact hsorted
  | update c h c' _ hupd ih =>
    unfold SampleLightClient.update_head at hupd
    cases hlast : c.cached_heights.getLast? with
    | none =>
      rw [hlast] at hupd
      dsimp only at hupd
      cases hupd
      have hnil : c.cached_heights = [] := by simpa using hlast
      rw [hnil]
      simp
    | some latest =>
      rw [hlast] at hupd
      dsimp only at hupd
      by_cases hle : h ≤ latest
      · rw [if_pos hle] at hupd
        cases hupd
      · rw [if_neg hle] at hupd
        cases hupd
        refine List.pairwise_append.mpr ⟨ih, by simp, ?_⟩
        intro x hx y hy
        have hxle := sorted_le_getLast? c.cached_heights latest ih hlast x hx
        have hyh : y = h := by simpa using hy
        omega
  | evict c _ ih =>
    cases hc : c.cached_heights with
    | nil =>
      simp [SampleLightClient.remove_oldest_head, hc]
    | cons a t =>
      have : c.remove_oldest_head.cached_heights = t := by
        simp [SampleLightClient.remove_oldest_head, hc]
      rw [this]
      rw [hc] at ih
      exact (List.sorted_cons.mp ih).2

/-- Counterexample to claim C8 as stated: with a configured bound of 0, a
reachable state caching the single height 5 has its count exceed the bound,
and `remove_oldest_head` evicts that state — which is the latest one (the
largest cached height). -/
theorem eviction_claim_counterexample :
    SampleLightClient.Reachable ⟨[5]⟩ ∧
    0 < (⟨[5]⟩ : SampleLightClient).cached_heights.length ∧
    (⟨[5]⟩ : SampleLightClient).latest_height = some 5 ∧
    (⟨[5]⟩ : SampleLightClient).remove_oldest_head.cached_heights = [] :=
  ⟨.new [5] (by simp), by simp, rfl, rfl⟩

/-- Claim C8 (amended): on every reachable state with a non-empty cache,
`remove_oldest_head` removes exactly the front of the deque, which carries
the smallest cached height; and whenever eviction is invoked because the
count exceeds a configured bound of at least 1 (so at least two heights are
cached), the latest cached height survives the eviction.  With a zero bound
the sole cached state, which is also the latest, can be evicted (see the
counterexample). -/
theorem eviction_removes_smallest :
    ∀ (c : SampleLightClient) (bound : Nat),
      SampleLightClient.Reachable c →
      c.cached_heights ≠ [] →
      (∃ h rest, c.cached_heights = h :: rest ∧
        c.remove_oldest_head = ⟨rest⟩ ∧
        ∀ x ∈ c.cached_heights, h ≤ x) ∧
      (1 ≤ bound → bound < c.cached_heights.length →
        c.remove_oldest_head.latest_height = c.latest_height) := by
  intro c bound hreach hne
  have hsorted := reachable_sorted c hreach
  obtain ⟨h0, rest, hc⟩ : ∃ a l, c.cached_heights = a :: l := by
    cases hcc : c.cached_heights with
    | nil => exact absurd hcc hne
    | cons a l => exact ⟨_, _, rfl⟩
  rw [hc] at hsorted
  obtain ⟨hle, htail⟩ := List.sorted_cons.mp hsorted
  constructor
  · refine ⟨h0, rest, hc, ?_, ?_⟩
    · simp [SampleLightClient.remove_oldest_head, hc]
    · intro x hx
      rw [hc] at hx
      rcases List.mem_cons.mp hx with hxb | hxt
      · omega
      · exact hle x hxt
  · intro hb hlen
    rw [hc] at hlen
    have hrest : rest ≠ [] := by
      intro he
      subst he
      simp at hlen
      omega
    cases hr : rest with
    | nil => exact absurd hr hrest
    | cons r1 rt =>
      rw [hr] at hc
      simp only [SampleLightClient.latest_height,
        SampleLightClient.remove_oldest_head, hc, List.tail_cons,
        List.getLast?_cons_cons]

/-- Witness for the amended C8: evicting from the reachable state caching
heights 3 and 7 with bound 1 keeps the latest height 7. -/
theorem eviction_removes_smallest_witness :
    (⟨[3, 7]⟩ : SampleLightClient).remove_oldest_head.latest_height =
      (⟨[3, 7]⟩ : SampleLightClient).latest_height :=
  (eviction_removes_smallest ⟨[3, 7]⟩ 1 (.new [3, 7] (by decide))
    (by decide)).2 le_rfl (by decide)

/-! ## Claim C9: totality of `validate_contract_state` -/

/-- When every proof element decodes, collecting the decoded nodes
succeeds. -/
theorem mapM_decode_isSome :
    ∀ (l : List Bytes),
      (∀ p ∈ l, (RawTrieNodeWithSize.decode p).isSome = true) →
      ∃ nodes, l.mapM RawTrieNodeWithSize.decode = some nodes
  | [], _ => ⟨[], rfl⟩
  | p :: ps, hall => by
    obtain ⟨n, hn⟩ := Option.isSome_iff_exists.mp (hall p (List.mem_cons_self _ _))
    obtain ⟨nodes, hnodes⟩ :=
      mapM_decode_isSome ps (fun q hq => hall q (List.mem_cons_of_mem _ hq))
    exact ⟨n :: nodes, by rw [List.mapM_cons, hn, hnodes]; rfl⟩

/-- Counterexample to claim C9 as stated: with a cached head present and an
empty proofs vector, `validate_contract_state` evaluates `proofs[0]` and
panics (modelled as `none`) instead of returning a `MissingProofData` error;
indeed its declared error type in this revision has no such variant. -/
theorem validate_contract_state_claim_counterexample :
    validate_contract_state shaConcrete getHeadConst (.height 0) [] [] [] [] =
      none := rfl

/-- Claim C9 (amended): `validate_contract_state` returns a verdict of its
declared error type whenever the head lookup fails (the
`MissingHeadInClient` error) and whenever the proofs vector is non-empty
with every element decodable as a `RawTrieNodeWithSize`; but an empty proofs
vector makes it panic on `proofs[0]`, and an undecodable element makes the
`.unwrap()` panic, rather than produce an error value (see the
counterexample). -/
theorem validate_contract_state_totality :
    ∀ (sha256 : Bytes → Bytes) (get_head : BlockId → Option LightClientBlockViewExt)
      (block_id : BlockId) (contract_id key_prefix value : Bytes)
      (proofs : List Bytes),
      (get_head block_id = none →
        validate_contract_state sha256 get_head block_id contract_id key_prefix
          value proofs = some (.error (.missingHeadInClient block_id))) ∧
      (proofs ≠ [] →
        (∀ p ∈ proofs, (RawTrieNodeWithSize.decode p).isSome = true) →
        ∃ r, validate_contract_state sha256 get_head block_id contract_id
          key_prefix value proofs = some r) := by
  intro sha256 get_head block_id contract_id key_prefix value proofs
  constructor
  · intro hnone
    unfold validate_contract_state
    rw [hnone]
  · intro hne hdec
    unfold validate_contract_state
    cases hh : get_head block_id with
    | none => exact ⟨_, rfl⟩
    | some head =>
      cases proofs with
      | nil => exact absurd rfl hne
      | cons p0 ps =>
        dsimp only
        by_cases hroot : (⟨sha256 p0⟩ : CryptoHash) ∈ head.prev_state_root_of_chunks
        · rw [if_pos hroot]
          obtain ⟨nodes, hnodes⟩ := mapM_decode_isSome _ hdec
          rw [hnodes]
          exact ⟨_, rfl⟩
        · rw [if_neg hroot]
          exact ⟨_, rfl⟩

/-- Witness for the amended C9: a single all-zero 49-byte proof element
decodes (as a leaf node), so the call returns a verdict. -/
theorem validate_contract_state_totality_witness :
    ∃ r, validate_contract_state shaConcrete getHeadConst (.height 0) [] [] []
      [List.replicate 49 0] = some r :=
  (validate_contract_state_totality shaConcrete getHeadConst (.height 0) [] [] []
    [List.replicate 49 0]).2 (by decide) (by decide)

/-! ## Claim C7: merkle path consistency -/

/-- Reading a just-written list position yields the written value. -/
theorem getD_set_self {α : Type} (l : List α) (i : Nat) (v d : α) (h : i < l.length) :
    (l.set i v).getD i d = v := by
  simp [List.getD_eq_getElem?_getD, List.getElem?_set_self h]

/-- Reading any other position is unaffected by a write. -/
theorem getD_set_ne {α : Type} (l : List α) (i j : Nat) (v d : α) (h : j ≠ i) :
    (l.set i v).getD j d = l.getD j d := by
  simp [List.getD_eq_getElem?_getD, List.getElem?_set_ne (fun he => h he.symm)]

/-- Reading inside a map over `List.range`. -/
theorem getD_map_range {α : Type} (f : Nat → α) (n j : Nat) (d : α) (h : j < n) :
    ((List.range n).map f).getD j d = f j := by
  simp [List.getD_eq_getElem?_getD, List.getElem?_map, List.getElem?_range h]

/-- Appending one item to a merkle path applies one more combining step. -/
theorem compute_root_from_path_append_one (sha256 : Bytes → Bytes)
    (path : MerklePath) (item : MerklePathItem) (h : CryptoHash) :
    compute_root_from_path sha256 (path ++ [item]) h =
      match item.direction with
      | .left => combine_hash sha256 item.hash (compute_root_from_path sha256 path h)
      | .right => combine_hash sha256 (compute_root_from_path sha256 path h) item.hash := by
  simp [compute_root_from_path, List.foldl_append]

/-- Length of one merkle level: pairs are combined, a trailing node is
promoted. -/
theorem levelUp_length (sha256 : Bytes → Bytes) :
    ∀ l : List CryptoHash, (levelUp sha256 l).length = (l.length + 1) / 2
  | [] => by simp [levelUp]
  | [_] => by simp [levelUp]
  | _ :: _ :: rest => by
    simp only [levelUp, List.length_cons, levelUp_length sha256 rest]
    omega

/-- Entries of one merkle level: position `k` combines positions `2k` and
`2k + 1` of the lower level, promoting `2k` unchanged when `2k + 1` is out
of range. -/
theorem levelUp_getD (sha256 : Bytes → Bytes) :
    ∀ (l : List CryptoHash) (k : Nat), 2 * k < l.length →
      (levelUp sha256 l).getD k CryptoHash.zero =
        if 2 * k + 1 < l.length then
          combine_hash sha256 (l.getD (2 * k) CryptoHash.zero)
            (l.getD (2 * k + 1) CryptoHash.zero)
        else l.getD (2 * k) CryptoHash.zero
  | [], k, h => by simp at h
  | [a], k, h => by
    have hk : k = 0 := by simp at h; omega
    subst hk
    simp [levelUp]
  | a :: b :: rest, 0, h => by
    simp [levelUp]
  | a :: b :: rest, k + 1, h => by
    have hrec := levelUp_getD sha256 rest k (by simp at h; omega)
    rw [show (2 * (k + 1) : Nat) = 2 * k + 1 + 1 by ring]
    simp only [levelUp, List.getD_cons_succ, List.length_cons]
    rw [hrec]
    by_cases hin : 2 * k + 1 < rest.length
    · rw [if_pos hin, if_pos (by omega)]
    · rw [if_neg hin, if_neg (by omega)]

/-- `next_power_of_two` dominates its argument. -/
theorem le_nextPowerOfTwo (n : Nat) : n ≤ nextPowerOfTwo n := by
  induction n using Nat.strong_induction_on with
  | _ n ih =>
    match n with
    | 0 => simp [nextPowerOfTwo]
    | 1 => simp [nextPowerOfTwo]
    | n + 2 =>
      have hrec := ih ((n + 3) / 2) (by omega)
      simp only [nextPowerOfTwo]
      omega

/-- `next_power_of_two` is a power of two. -/
theorem nextPowerOfTwo_pow (n : Nat) : ∃ m, nextPowerOfTwo n = 2 ^ m := by
  induction n using Nat.strong_induction_on with
  | _ n ih =>
    match n with
    | 0 => exact ⟨0, by simp [nextPowerOfTwo]⟩
    | 1 => exact ⟨0, by simp [nextPowerOfTwo]⟩
    | n + 2 =>
      obtain ⟨m, hm⟩ := ih ((n + 3) / 2) (by omega)
      refine ⟨m + 1, ?_⟩
      rw [show nextPowerOfTwo (n + 2) = 2 * nextPowerOfTwo ((n + 3) / 2) from by
        simp [nextPowerOfTwo], hm]
      ring

/-- Unfolding one step of the path-push loop. -/
theorem pushToRange_succ (paths : List MerklePath) (start c total : Nat)
    (item : MerklePathItem) :
    pushToRange paths start (c + 1) total item =
      if start + c < total then
        (pushToRange paths start c total item).set (start + c)
          ((pushToRange paths start c total item).getD (start + c) [] ++ [item])
      else pushToRange paths start c total item := by
  simp only [pushToRange, List.range_succ, List.foldl_append, List.foldl_cons,
    List.foldl_nil]

/-- The path-push loop preserves the number of paths. -/
theorem pushToRange_length (start total : Nat) (item : MerklePathItem) :
    ∀ (count : Nat) (paths : List MerklePath),
      (pushToRange paths start count total item).length = paths.length := by
  intro count
  induction count with
  | zero => intro paths; rfl
  | succ c ih =>
    intro paths
    rw [pushToRange_succ]
    by_cases hlt : start + c < total
    · rw [if_pos hlt, List.length_set]
      exact ih paths
    · rw [if_neg hlt]
      exact ih paths

/-- Entries after the path-push loop: positions inside `[start, start + count)`
and below `total` receive the item, the rest are untouched. -/
theorem pushToRange_getD (start total : Nat) (item : MerklePathItem) :
    ∀ (count : Nat) (paths : List MerklePath) (j : Nat), total ≤ paths.length →
      (pushToRange paths start count total item).getD j [] =
        if start ≤ j ∧ j < start + count ∧ j < total then paths.getD j [] ++ [item]
        else paths.getD j [] := by
  intro count
  induction count with
  | zero =>
    intro paths j htot
    rw [if_neg (by omega)]
    rfl
  | succ c ih =>
    intro paths j htot
    rw [pushToRange_succ]
    have hip := ih paths j htot
    by_cases hlt : start + c < total
    · rw [if_pos hlt]
      by_cases hj : j = start + c
      · subst hj
        rw [getD_set_self _ _ _ _ (by rw [pushToRange_length]; omega)]
        rw [hip, if_neg (by omega), if_pos (by omega)]
      · rw [getD_set_ne _ _ _ _ _ hj, hip]
        by_cases hcond : start ≤ j ∧ j < start + c ∧ j < total
        · rw [if_pos hcond, if_pos (by omega)]
        · rw [if_neg hcond, if_neg (by omega)]
    · rw [if_neg hlt, hip]
      by_cases hcond : start ≤ j ∧ j < start + c ∧ j < total
      · rw [if_pos hcond, if_pos (by omega)]
      · rw [if_neg hcond, if_neg (by omega)]

/-- Membership of a block of span `counter`: `j / counter = b` exactly when
`j` lies in `[b * counter, b * counter + counter)`. -/
theorem div_block_iff (counter : Nat) (hcnt : 0 < counter) (j b : Nat) :
    j / counter = b ↔ (b * counter ≤ j ∧ j < b * counter + counter) := by
  constructor
  · intro h
    constructor
    · have := (Nat.le_div_iff_mul_le hcnt).mp (le_of_eq h.symm)
      exact this
    · have : j / counter < b + 1 := by omega
      have := (Nat.div_lt_iff_lt_mul hcnt).mp this
      calc j < (b + 1) * counter := this
        _ = b * counter + counter := by ring
  · intro ⟨h1, h2⟩
    exact Nat.div_eq_of_lt_le h1 (by calc j < b * counter + counter := h2
      _ = (b + 1) * counter := by ring)

/-- Unfolding one step of the inner merklization loop. -/
theorem merklizeSteps_succ (sha256 : Bytes → Bytes)
    (total arrLen counter len : Nat) (st : List CryptoHash × List MerklePath)
    (k : Nat) :
    (List.range (k + 1)).foldl (merklizeInnerStep sha256 total arrLen counter len) st =
      merklizeInnerStep sha256 total arrLen counter len
        ((List.range k).foldl (merklizeInnerStep sha256 total arrLen counter len) st) k := by
  rw [List.range_succ, List.foldl_append, List.foldl_cons, List.foldl_nil]

/-- State after `k` iterations of the inner merklization loop: hash positions
`p < k` with `2p < arr_len` hold the parent value `nv p` (combining the old
positions `2p` and `2p + 1`, promoting `2p` when unpaired), all other hash
positions are untouched; and, while `len > 1`, the path of each leaf `j`
below `total` has received exactly the sibling item of its block of span
`counter` once the sibling position has been processed. -/
theorem merklizeSteps_spec (sha256 : Bytes → Bytes)
    (total arrLen counter len : Nat) (st : List CryptoHash × List MerklePath)
    (nv : Nat → CryptoHash)
    (hcnt : 0 < counter)
    (hhlen : (arrLen + 1) / 2 ≤ st.1.length)
    (hplen : total ≤ st.2.length)
    (hnv : ∀ p, nv p =
      if 2 * p + 1 ≥ arrLen then st.1.getD (2 * p) CryptoHash.zero
      else combine_hash sha256 (st.1.getD (2 * p) CryptoHash.zero)
        (st.1.getD (2 * p + 1) CryptoHash.zero)) :
    ∀ k : Nat,
      (((List.range k).foldl (merklizeInnerStep sha256 total arrLen counter len) st).1.length =
        st.1.length) ∧
      (((List.range k).foldl (merklizeInnerStep sha256 total arrLen counter len) st).2.length =
        st.2.length) ∧
      (∀ p, ((List.range k).foldl (merklizeInnerStep sha256 total arrLen counter len) st).1.getD
          p CryptoHash.zero =
        if p < k ∧ 2 * p < arrLen then nv p else st.1.getD p CryptoHash.zero) ∧
      (len ≤ 1 →
        ((List.range k).foldl (merklizeInnerStep sha256 total arrLen counter len) st).2 = st.2) ∧
      (∀ j, j < total → 1 < len → (j / counter) % 2 = 1 →
        ((List.range k).foldl (merklizeInnerStep sha256 total arrLen counter len) st).2.getD
            j [] =
          if j / counter - 1 < k ∧ 2 * (j / counter - 1) < arrLen then
            st.2.getD j [] ++ [⟨nv (j / counter - 1), .left⟩]
          else st.2.getD j []) ∧
      (∀ j, j < total → 1 < len → (j / counter) % 2 = 0 →
        ((List.range k).foldl (merklizeInnerStep sha256 total arrLen counter len) st).2.getD
            j [] =
          if j / counter + 1 < k ∧ 2 * (j / counter + 1) < arrLen then
            st.2.getD j [] ++ [⟨nv (j / counter + 1), .right⟩]
          else st.2.getD j []) := by
  intro k
  induction k with
  | zero =>
    refine ⟨rfl, rfl, ?_, fun _ => rfl, ?_, ?_⟩
    · intro p
      rw [if_neg (by omega)]
      simp [List.range_zero]
    · intro j _ _ _
      rw [if_neg (by omega)]
      simp [List.range_zero]
    · intro j _ _ _
      rw [if_neg (by omega)]
      simp [List.range_zero]
  | succ k ih =>
    obtain ⟨ihA, ihB, ihC, ihD, ihE, ihF⟩ := ih
    rw [merklizeSteps_succ]
    by_cases hskip : 2 * k ≥ arrLen
    · simp only [merklizeInnerStep]
      rw [if_pos hskip]
      refine ⟨ihA, ihB, ?_, ihD, ?_, ?_⟩
      · intro p
        rw [ihC p]
        by_cases hc : p < k ∧ 2 * p < arrLen
        · rw [if_pos hc, if_pos (by omega)]
        · rw [if_neg hc, if_neg (by omega)]
      · intro j hj hlenh hpar
        rw [ihE j hj hlenh hpar]
        by_cases hc : j / counter - 1 < k ∧ 2 * (j / counter - 1) < arrLen
        · rw [if_pos hc, if_pos ⟨by omega, hc.2⟩]
        · rw [if_neg hc, if_neg (by
            intro hc'
            exact hc ⟨by omega, hc'.2⟩)]
      · intro j hj hlenh hpar
        rw [ihF j hj hlenh hpar]
        by_cases hc : j / counter + 1 < k ∧ 2 * (j / counter + 1) < arrLen
        · rw [if_pos hc, if_pos ⟨by omega, hc.2⟩]
        · rw [if_neg hc, if_neg (by
            intro hc'
            exact hc ⟨by omega, hc'.2⟩)]
    · have hlt : 2 * k < arrLen := by omega
      have hread0 : ((List.range k).foldl
            (merklizeInnerStep sha256 total arrLen counter len) st).1.getD (2 * k)
            CryptoHash.zero = st.1.getD (2 * k) CryptoHash.zero := by
        rw [ihC (2 * k), if_neg (by omega)]
      have hread1 : ((List.range k).foldl
            (merklizeInnerStep sha256 total arrLen counter len) st).1.getD (2 * k + 1)
            CryptoHash.zero = st.1.getD (2 * k + 1) CryptoHash.zero := by
        rw [ihC (2 * k + 1), if_neg (by omega)]
      simp only [merklizeInnerStep]
      rw [if_neg hskip]
      dsimp only
      rw [hread0, hread1, ← hnv k]
      have hk1 : k < ((List.range k).foldl
          (merklizeInnerStep sha256 total arrLen counter len) st).1.length := by
        rw [ihA]
        omega
      have hlen2 : total ≤ ((List.range k).foldl
          (merklizeInnerStep sha256 total arrLen counter len) st).2.length := by
        rw [ihB]
        exact hplen
      refine ⟨?_, ?_, ?_, ?_, ?_, ?_⟩
      · rw [List.length_set]
        exact ihA
      · by_cases hlen1 : 1 < len
        · rw [if_pos hlen1]
          by_cases hk2 : k % 2 = 0
          · rw [if_pos hk2, pushToRange_length]
            exact ihB
          · rw [if_neg hk2, pushToRange_length]
            exact ihB
        · rw [if_neg hlen1]
          exact ihB
      · intro p
        by_cases hp : p = k
        · subst hp
          rw [getD_set_self _ _ _ _ hk1, if_pos ⟨by omega, hlt⟩]
        · rw [getD_set_ne _ _ _ _ _ hp, ihC p]
          by_cases hc : p < k ∧ 2 * p < arrLen
          · rw [if_pos hc, if_pos ⟨by omega, hc.2⟩]
          · rw [if_neg hc, if_neg (by
              intro hc'
              exact hc ⟨by omega, hc'.2⟩)]
      · intro hlen1
        rw [if_neg (by omega)]
        exact ihD hlen1
      · intro j hj hlenh hpar
        rw [if_pos hlenh]
        obtain ⟨b, hbv⟩ : ∃ b, j / counter = b := ⟨_, rfl⟩
        rw [hbv] at hpar
        by_cases hk2 : k % 2 = 0
        · rw [if_pos hk2]
          rw [pushToRange_getD _ _ _ counter _ j hlen2]
          rw [ihE j hj hlenh (by rw [hbv]; exact hpar), hbv]
          by_cases hjb : b = k + 1
          · subst hjb
            have hrange := (div_block_iff counter hcnt j (k + 1)).mp hbv
            have hold : ¬(k + 1 - 1 < k ∧ 2 * (k + 1 - 1) < arrLen) := by omega
            have hnew : k + 1 - 1 < k + 1 ∧ 2 * (k + 1 - 1) < arrLen := by omega
            rw [if_neg hold, if_pos ⟨hrange.1, hrange.2, hj⟩, if_pos hnew,
              Nat.add_sub_cancel]
          · have hnrange : ¬((k + 1) * counter ≤ j ∧ j < (k + 1) * counter + counter ∧
                j < total) := by
              intro hr
              have := (div_block_iff counter hcnt j (k + 1)).mpr ⟨hr.1, hr.2.1⟩
              rw [hbv] at this
              exact hjb this
            rw [if_neg hnrange]
            by_cases hcold : b - 1 < k ∧ 2 * (b - 1) < arrLen
            · rw [if_pos hcold, if_pos ⟨by omega, hcold.2⟩]
            · have hnnew : ¬(b - 1 < k + 1 ∧ 2 * (b - 1) < arrLen) := by
                intro hc'
                exact hcold ⟨by omega, hc'.2⟩
              rw [if_neg hcold, if_neg hnnew]
        · rw [if_neg hk2]
          have hk2' : k % 2 = 1 := by omega
          rw [pushToRange_getD _ _ _ counter _ j hlen2]
          rw [ihE j hj hlenh (by rw [hbv]; exact hpar), hbv]
          have hnrange : ¬((k - 1) * counter ≤ j ∧ j < (k - 1) * counter + counter ∧
              j < total) := by
            intro hr
            have := (div_block_iff counter hcnt j (k - 1)).mpr ⟨hr.1, hr.2.1⟩
            rw [hbv] at this
            omega
          rw [if_neg hnrange]
          by_cases hcold : b - 1 < k ∧ 2 * (b - 1) < arrLen
          · rw [if_pos hcold, if_pos ⟨by omega, hcold.2⟩]
          · have hnnew : ¬(b - 1 < k + 1 ∧ 2 * (b - 1) < arrLen) := by
              intro hc'
              exact hcold ⟨by omega, hc'.2⟩
            rw [if_neg hcold, if_neg hnnew]
      · intro j hj hlenh hpar
        rw [if_pos hlenh]
        obtain ⟨b, hbv⟩ : ∃ b, j / counter = b := ⟨_, rfl⟩
        rw [hbv] at hpar
        by_cases hk2 : k % 2 = 0
        · rw [if_pos hk2]
          rw [pushToRange_getD _ _ _ counter _ j hlen2]
          rw [ihF j hj hlenh (by rw [hbv]; exact hpar), hbv]
          have hnrange : ¬((k + 1) * counter ≤ j ∧ j < (k + 1) * counter + counter ∧
              j < total) := by
            intro hr
            have := (div_block_iff counter hcnt j (k + 1)).mpr ⟨hr.1, hr.2.1⟩
            rw [hbv] at this
            omega
          rw [if_neg hnrange]
          by_cases hcold : b + 1 < k ∧ 2 * (b + 1) < arrLen
          · rw [if_pos hcold, if_pos ⟨by omega, hcold.2⟩]
          · have hnnew : ¬(b + 1 < k + 1 ∧ 2 * (b + 1) < arrLen) := by
              intro hc'
              exact hcold ⟨by omega, hc'.2⟩
            rw [if_neg hcold, if_neg hnnew]
        · rw [if_neg hk2]
          have hk2' : k % 2 = 1 := by omega
          rw [pushToRange_getD _ _ _ counter _ j hlen2]
          rw [ihF j hj hlenh (by rw [hbv]; exact hpar), hbv]
          by_cases hjb : b = k - 1
          · have hbk : j / counter = k - 1 := by omega
            have hrange := (div_block_iff counter hcnt j (k - 1)).mp hbk
            have hold : ¬(b + 1 < k ∧ 2 * (b + 1) < arrLen) := by omega
            have hnew : b + 1 < k + 1 ∧ 2 * (b + 1) < arrLen := by omega
            have hsub : b + 1 = k := by omega
            rw [if_neg hold, if_pos ⟨hrange.1, hrange.2, hj⟩, if_pos hnew, hsub]
          · have hnrange : ¬((k - 1) * counter ≤ j ∧ j < (k - 1) * counter + counter ∧
                j < total) := by
              intro hr
              have := (div_block_iff counter hcnt j (k - 1)).mpr ⟨hr.1, hr.2.1⟩
              rw [hbv] at this
              exact hjb this
            rw [if_neg hnrange]
            by_cases hcold : b + 1 < k ∧ 2 * (b + 1) < arrLen
            · rw [if_pos hcold, if_pos ⟨by omega, hcold.2⟩]
            · have hnnew : ¬(b + 1 < k + 1 ∧ 2 * (b + 1) < arrLen) := by
                intro hc'
                exact hcold ⟨by omega, hc'.2⟩
              rw [if_neg hcold, if_neg hnnew]

/-- Ceiling division written through the floor of the predecessor. -/
theorem ceil_div_succ (t c : Nat) (hc : 0 < c) (ht : 0 < t) :
    (t + c - 1) / c = (t - 1) / c + 1 := by
  rw [show t + c - 1 = (t - 1) + c by omega, Nat.add_div_right _ hc]

/-- Block indices of elements below `t` stay below the ceiling block count. -/
theorem lt_ceil_div (t c j : Nat) (hc : 0 < c) (ht : 0 < t) (hj : j < t) :
    j / c < (t + c - 1) / c := by
  rw [ceil_div_succ t c hc ht]
  have h2 : j / c ≤ (t - 1) / c := Nat.div_le_div_right (by omega)
  omega

/-- The ceiling block count never exceeds the element count. -/
theorem ceil_div_le (t c : Nat) (hc : 0 < c) (ht : 0 < t) :
    (t + c - 1) / c ≤ t := by
  rw [ceil_div_succ t c hc ht]
  have := Nat.div_le_self (t - 1) c
  omega

/-- Unfolding one iteration of the `while len > 1` loop of `merklize`. -/
theorem merklizeLoop_unfold (sha256 : Bytes → Bytes)
    (total len counter arrLen : Nat) (st : List CryptoHash × List MerklePath) :
    merklizeLoop sha256 total len counter arrLen st =
      if 1 < len then
        merklizeLoop sha256 total (len / 2) (counter * 2) ((arrLen + 1) / 2)
          (merklizeLevel sha256 total arrLen (counter * 2) (len / 2) st)
      else st := by
  rw [merklizeLoop]

/-- Main invariant of the `merklize` loop: if the hash array holds the
current level `L` on its first `arr_len` positions, `arr_len` is the ceiling
block count of `total` over the current `counter`, and every leaf path folds
to its ancestor on the level above `L`, then after the loop every leaf path
folds exactly to the final root stored at position 0. -/
theorem merklizeLoop_correct (sha256 : Bytes → Bytes) (total : Nat) :
    ∀ (len counter arrLen : Nat) (st : List CryptoHash × List MerklePath)
      (L leafH : List CryptoHash),
      0 < total → 0 < counter →
      (∃ m, len = 2 ^ m) →
      arrLen = L.length →
      arrLen ≤ len →
      L.length = (total + counter - 1) / counter →
      st.1.length = total →
      (∀ p, p < arrLen → st.1.getD p CryptoHash.zero = L.getD p CryptoHash.zero) →
      st.2.length = total →
      (∀ j, j < total →
        compute_root_from_path sha256 (st.2.getD j []) (leafH.getD j CryptoHash.zero) =
          (levelUp sha256 L).getD (j / (2 * counter)) CryptoHash.zero) →
      ∀ j, j < total →
        compute_root_from_path sha256
          ((merklizeLoop sha256 total len counter arrLen st).2.getD j [])
          (leafH.getD j CryptoHash.zero) =
        (merklizeLoop sha256 total len counter arrLen st).1.getD 0 CryptoHash.zero := by
  intro len
  induction len using Nat.strong_induction_on with
  | _ len IH =>
    intro counter arrLen st L leafH htot hcnt hpow harr hal hlc hs1 hpre hs2 hfold j hj
    rw [merklizeLoop_unfold]
    by_cases hlen : 1 < len
    · rw [if_pos hlen]
      obtain ⟨m, hm⟩ := hpow
      obtain ⟨m', rfl⟩ : ∃ m', m = m' + 1 := by
        cases m with
        | zero => rw [hm] at hlen; simp at hlen
        | succ m' => exact ⟨m', rfl⟩
      rw [pow_succ] at hm
      have hlen2 : len / 2 = 2 ^ m' := by omega
      have hev : len % 2 = 0 := by omega
      have hcnt' : 0 < counter * 2 := by omega
      have hLpos : 1 ≤ L.length := by
        rw [hlc]
        rw [ceil_div_succ total counter hcnt htot]
        exact Nat.le_add_left 1 _
      have hceil2 : (arrLen + 1) / 2 = (total + counter * 2 - 1) / (counter * 2) := by
        rw [harr, hlc, ← Nat.add_div_right (total + counter - 1) hcnt,
          Nat.div_div_eq_div_mul,
          show total + counter - 1 + counter = total + counter * 2 - 1 by omega]
      have hceilLe : (total + counter * 2 - 1) / (counter * 2) ≤ total :=
        ceil_div_le total (counter * 2) hcnt' htot
      have hh : (arrLen + 1) / 2 ≤ st.1.length := by
        rw [hs1, hceil2]
        exact hceilLe
      have hspec := merklizeSteps_spec sha256 total arrLen (counter * 2) (len / 2) st
        (fun p => if 2 * p + 1 ≥ arrLen then st.1.getD (2 * p) CryptoHash.zero
          else combine_hash sha256 (st.1.getD (2 * p) CryptoHash.zero)
            (st.1.getD (2 * p + 1) CryptoHash.zero))
        hcnt' hh hs2.symm.le (fun _ => rfl) (len / 2)
      obtain ⟨hA, hB, hC, hD, hE, hF⟩ := hspec
      have hMLdef : merklizeLevel sha256 total arrLen (counter * 2) (len / 2) st =
          (List.range (len / 2)).foldl
            (merklizeInnerStep sha256 total arrLen (counter * 2) (len / 2)) st := rfl
      rw [← hMLdef] at hA hB hC hD hE hF
      have hnvL : ∀ p, 2 * p < arrLen →
          (if 2 * p + 1 ≥ arrLen then st.1.getD (2 * p) CryptoHash.zero
            else combine_hash sha256 (st.1.getD (2 * p) CryptoHash.zero)
              (st.1.getD (2 * p + 1) CryptoHash.zero)) =
          (levelUp sha256 L).getD p CryptoHash.zero := by
        intro p hp
        rw [levelUp_getD sha256 L p (by omega)]
        by_cases hodd : 2 * p + 1 ≥ arrLen
        · rw [if_pos hodd, if_neg (by omega), hpre (2 * p) (by omega)]
        · rw [if_neg hodd, if_pos (by omega), hpre (2 * p) (by omega),
            hpre (2 * p + 1) (by omega)]
      have harr' : (arrLen + 1) / 2 = (levelUp sha256 L).length := by
        rw [levelUp_length, harr]
      have hal' : (arrLen + 1) / 2 ≤ len / 2 := by omega
      have hlc' : (levelUp sha256 L).length = (total + counter * 2 - 1) / (counter * 2) := by
        rw [← harr', hceil2]
      have hs1' : (merklizeLevel sha256 total arrLen (counter * 2) (len / 2) st).1.length =
          total := by rw [hA, hs1]
      have hpre' : ∀ p, p < (arrLen + 1) / 2 →
          (merklizeLevel sha256 total arrLen (counter * 2) (len / 2) st).1.getD p
            CryptoHash.zero = (levelUp sha256 L).getD p CryptoHash.zero := by
        intro p hp
        rw [hC p, if_pos ⟨by omega, by omega⟩, hnvL p (by omega)]
      have hs2' : (merklizeLevel sha256 total arrLen (counter * 2) (len / 2) st).2.length =
          total := by rw [hB, hs2]
      have hfold' : ∀ j', j' < total →
          compute_root_from_path sha256
            ((merklizeLevel sha256 total arrLen (counter * 2) (len / 2) st).2.getD j' [])
            (leafH.getD j' CryptoHash.zero) =
          (levelUp sha256 (levelUp sha256 L)).getD (j' / (2 * (counter * 2)))
            CryptoHash.zero := by
        intro j' hj'
        obtain ⟨b, hbv⟩ : ∃ b, j' / (counter * 2) = b := ⟨_, rfl⟩
        have hbL : b < (levelUp sha256 L).length := by
          rw [← hbv, hlc']
          exact lt_ceil_div total (counter * 2) j' hcnt' htot hj'
        have hdd : j' / (2 * (counter * 2)) = b / 2 := by
          rw [← hbv, Nat.div_div_eq_div_mul, Nat.mul_comm 2 (counter * 2)]
        have holdfold : compute_root_from_path sha256 (st.2.getD j' [])
            (leafH.getD j' CryptoHash.zero) =
            (levelUp sha256 L).getD b CryptoHash.zero := by
          rw [hfold j' hj', Nat.mul_comm 2 counter, hbv]
        by_cases hlen' : 1 < len / 2
        · by_cases hpar : b % 2 = 1
          · rw [hE j' hj' hlen' (by rw [hbv]; exact hpar)]
            simp only [hbv]
            have hb1 : b - 1 < (arrLen + 1) / 2 := by
              rw [harr']
              omega
            rw [if_pos ⟨by omega, by omega⟩]
            rw [compute_root_from_path_append_one]
            dsimp only
            rw [holdfold, hnvL (b - 1) (by omega)]
            rw [hdd, levelUp_getD sha256 (levelUp sha256 L) (b / 2) (by omega)]
            rw [if_pos (by omega), show 2 * (b / 2) = b - 1 by omega,
              show b - 1 + 1 = b by omega]
          · have hpar0 : b % 2 = 0 := by omega
            rw [hF j' hj' hlen' (by rw [hbv]; exact hpar0)]
            simp only [hbv]
            by_cases hnext : 2 * (b + 1) < arrLen
            · have hb1 : b + 1 < (arrLen + 1) / 2 := by omega
              rw [if_pos ⟨by omega, hnext⟩]
              rw [compute_root_from_path_append_one]
              dsimp only
              rw [holdfold, hnvL (b + 1) hnext]
              rw [hdd, levelUp_getD sha256 (levelUp sha256 L) (b / 2) (by omega)]
              rw [if_pos (by omega), show 2 * (b / 2) = b by omega]
            · rw [if_neg (by intro hc'; exact hnext hc'.2)]
              rw [holdfold]
              rw [hdd, levelUp_getD sha256 (levelUp sha256 L) (b / 2) (by omega)]
              rw [if_neg (by omega), show 2 * (b / 2) = b by omega]
        · have hD' := hD (by omega)
          rw [hD']
          have hL'1 : (levelUp sha256 L).length = 1 := by
            have h1le : 1 ≤ (levelUp sha256 L).length := by
              rw [hlc', ceil_div_succ total (counter * 2) hcnt' htot]
              exact Nat.le_add_left 1 _
            have hle2 : (levelUp sha256 L).length ≤ len / 2 := by
              rw [← harr']
              omega
            omega
          have hb0 : b = 0 := by omega
          rw [holdfold, hdd, hb0, Nat.zero_div]
          rw [levelUp_getD sha256 (levelUp sha256 L) 0 (by omega)]
          rw [if_neg (by omega)]
      exact IH (len / 2) (by omega) (counter * 2) ((arrLen + 1) / 2)
        (merklizeLevel sha256 total arrLen (counter * 2) (len / 2) st)
        (levelUp sha256 L) leafH htot hcnt' ⟨m', hlen2⟩ harr' hal' hlc' hs1' hpre'
        hs2' hfold' j hj
    · rw [if_neg hlen]
      have hge : 1 ≤ L.length := by
        rw [hlc, ceil_div_succ total counter hcnt htot]
        exact Nat.le_add_left 1 _
      have hL1 : L.length = 1 := by omega
      have htc : total ≤ counter := by
        by_contra hcon
        have hlt := lt_ceil_div total counter counter hcnt htot (by omega)
        rw [← hlc, Nat.div_self hcnt] at hlt
        omega
      have hj0 : j / (2 * counter) = 0 := Nat.div_eq_of_lt (by omega)
      rw [hfold j hj, hj0]
      rw [levelUp_getD sha256 L 0 (by omega), if_neg (by omega)]
      rw [show (2 * 0 : Nat) = 0 from rfl]
      exact (hpre 0 (by omega)).symm

/-- The paths prepared before the loop of `merklize` already fold to the
first `levelUp` level: each leaf combined with its recorded neighbour (or
promoted alone when unpaired) gives the parent hash at block index `j / 2`. -/
theorem merklizeInitPaths_fold (sha256 : Bytes → Bytes)
    (hashes : List CryptoHash) (n j : Nat) (hn : hashes.length = n) (hj : j < n) :
    compute_root_from_path sha256
      ((merklizeInitPaths hashes n).getD j [])
      (hashes.getD j CryptoHash.zero) =
    (levelUp sha256 hashes).getD (j / 2) CryptoHash.zero := by
  subst hn
  rw [merklizeInitPaths, getD_map_range _ hashes.length j [] hj]
  rw [levelUp_getD sha256 hashes (j / 2) (by omega)]
  by_cases hpar : j % 2 = 0
  · rw [if_pos hpar]
    by_cases hnext : j + 1 < hashes.length
    · rw [if_pos hnext, if_pos (by omega)]
      show combine_hash sha256 (hashes.getD j CryptoHash.zero)
        (hashes.getD (j + 1) CryptoHash.zero) = _
      rw [show 2 * (j / 2) = j by omega]
    · rw [if_neg hnext, if_neg (by omega)]
      show hashes.getD j CryptoHash.zero = _
      rw [show 2 * (j / 2) = j by omega]
  · rw [if_neg hpar, if_pos (by omega)]
    show combine_hash sha256 (hashes.getD (j - 1) CryptoHash.zero)
      (hashes.getD j CryptoHash.zero) = _
    rw [show 2 * (j / 2) = j - 1 by omega, show j - 1 + 1 = j by omega]

/-- Claim C7: for every non-empty sequence `xs` and every index
`i < |xs|`, the merkle path `merklize` produces at `i` recomputes the
returned root from the borsh leaf hash of `xs[i]` via
`compute_root_from_path`; and `merklize` of the empty sequence returns the
all-zero hash with no paths. -/
theorem merklize_compute_root {α : Type} (sha256 : Bytes → Bytes)
    (encode : α → Bytes) (xs : List α) :
    (∀ i, i < xs.length →
      compute_root_from_path sha256 ((merklize sha256 encode xs).2.getD i [])
        ((xs.map (hash_borsh sha256 encode)).getD i CryptoHash.zero) =
      (merklize sha256 encode xs).1) ∧
    merklize sha256 encode ([] : List α) = (CryptoHash.zero, []) := by
  constructor
  · intro i hi
    have h0 : 0 < xs.length := by omega
    have hne : ¬ (xs.isEmpty = true) := by
      cases xs with
      | nil => simp at h0
      | cons a l => simp
    rw [merklize, if_neg hne]
    dsimp only
    by_cases h1 : nextPowerOfTwo xs.length = 1
    · rw [if_pos h1]
      have hle := le_nextPowerOfTwo xs.length
      have hx1 : xs.length = 1 := by omega
      have hi0 : i = 0 := by omega
      subst hi0
      rfl
    · rw [if_neg h1]
      dsimp only
      exact merklizeLoop_correct sha256 xs.length (nextPowerOfTwo xs.length) 1
        xs.length
        (xs.map (hash_borsh sha256 encode),
          merklizeInitPaths (xs.map (hash_borsh sha256 encode)) xs.length)
        (xs.map (hash_borsh sha256 encode)) (xs.map (hash_borsh sha256 encode))
        h0 Nat.one_pos (nextPowerOfTwo_pow xs.length) (by simp)
        (le_nextPowerOfTwo xs.length) (by simp) (by simp) (fun p _ => rfl)
        (by simp [merklizeInitPaths])
        (fun j hj => by
          rw [show (2 * 1 : Nat) = 2 from rfl]
          exact merklizeInitPaths_fold sha256 (xs.map (hash_borsh sha256 encode))
            xs.length j (by simp) hj)
        i hi
  · rfl

/-- Witness for claim C7 at a concrete three-element sequence and index 1. -/
theorem merklize_compute_root_witness :
    1 < ([5, 6, 7] : List Nat).length ∧
    compute_root_from_path shaConcrete
      ((merklize shaConcrete le32 ([5, 6, 7] : List Nat)).2.getD 1 [])
      (([5, 6, 7].map (hash_borsh shaConcrete le32)).getD 1 CryptoHash.zero) =
    (merklize shaConcrete le32 ([5, 6, 7] : List Nat)).1 :=
  ⟨by decide, (merklize_compute_root shaConcrete le32 [5, 6, 7]).1 1 (by decide)⟩

end NearLC
